import Mathlib

/-!
Verification of the log-surgeon log parser against its specification.

The development shallowly embeds the Rust sources:
* `src/nfa/nfa.rs` — the Thompson-style NFA builder (`add_ast_to_nfa` and its
  helpers), the transition alphabet (128-bit one-hot labels modelled as `Nat`),
  `epsilon_closure` and `get_combined_state_names`;
* `src/log_parser/log_parser.rs` — `LogParser::parse_next_log_event` and
  `LogEvent::new`;
* `src/parser/schema_parser/parser.rs` — `SchemaConfig::load_from_kv_pairs`.

Conventions used throughout:
* Rust `u128` bitmaps become `Nat`; every shift performed by the code is
  `1 << c` with `c ≤ 127`, so no wrap-around can occur and plain `Nat`
  arithmetic is exact.
* Rust `Vec` push/pop at the back are modelled by list append, respectively by
  keeping the top of a stack at the head of a list (so the head of the list is
  the last element of the vector).
* `HashMap<State, Vec<Transition>>` is modelled by the flat insertion-ordered
  transition list; the per-state vector is recovered by filtering on the
  source state, which preserves the per-state insertion order.
* Fallible Rust functions returning `Result` become `Except Error`.
-/

namespace LogSurgeon

/-- The error type of `src/error_handling` as used by the embedded modules. -/
inductive Error where
  | NegationNotSupported (msg : String)
  | NonGreedyRepetitionNotSupported
  | NoneASCIICharacters
  | UnsupportedAstBracketedKind
  | UnsupportedAstNodeType (msg : String)
  | UnsupportedClassSetType
  | UnsupportedGroupKindType
  | MissingSchemaKey (key : String)
  | InvalidSchema
  | LogParserInternalErr (msg : String)
deriving DecidableEq

/-- One NFA edge, from `nfa.rs`: fields `from`, `to`,
`symbol_onehot_encoding : u128` and `tag : i16` (`from`/`to` are renamed
`src`/`dst` because `from` is a Lean keyword). -/
structure Transition where
  src : Nat
  dst : Nat
  sym : Nat
  tag : Int
deriving DecidableEq

/-- `const DIGIT_TRANSITION: u128` from `nfa.rs`: bits for `'0'..='9'`. -/
def DIGIT_TRANSITION : Nat := 0x000000000000000003ff000000000000

/-- `const SPACE_TRANSITION: u128` from `nfa.rs`. -/
def SPACE_TRANSITION : Nat := 0x00000000000000000000000100003e00

/-- `const WORD_TRANSITION: u128` from `nfa.rs`. -/
def WORD_TRANSITION : Nat := 0x07fffffe87fffffe03ff000000000000

/-- `const EPSILON_TRANSITION: u128 = 0x0`. -/
def EPSILON_TRANSITION : Nat := 0

/-- `const DOT_TRANSITION: u128 = !EPSILON_TRANSITION`, i.e. all 128 bits set. -/
def DOT_TRANSITION : Nat := 2 ^ 128 - 1

/-- `Transition::convert_char_range_to_symbol_onehot_encoding`: or together
`1 << c` for `c` in the inclusive range (`begin..=end` is empty when
`begin > end`, which `List.range' b (e + 1 - b)` reproduces). -/
def convert_char_range_to_symbol_onehot_encoding : Option (Nat × Nat) → Nat
  | some (b, e) => (List.range' b (e + 1 - b)).foldl (fun acc c => acc ||| (1 <<< c)) 0
  | none => 0

/-- `Transition::convert_char_to_symbol_onehot_encoding`: the one-hot bitmap of
a single character. -/
def convert_char_to_symbol_onehot_encoding (c : Nat) : Nat := 1 <<< c

/-- The NFA of `nfa.rs`: start and accept state, the dense state vector (state
`i` is stored at index `i`) and the transition store (see the file header for
the `HashMap` convention). -/
structure NFA where
  start : Nat
  accept : Nat
  states : List Nat
  transitions : List Transition
deriving DecidableEq

/-- `NFA::new()`: states `[START_STATE, ACCEPT_STATE] = [0, 1]`, no
transitions. -/
def NFA.new : NFA := { start := 0, accept := 1, states := [0, 1], transitions := [] }

/-- `NFA::new_state`: push `State(states.len())` and return it. -/
def NFA.new_state (n : NFA) : Nat × NFA :=
  (n.states.length, { n with states := n.states ++ [n.states.length] })

/-- `NFA::add_transition`: append an edge with the given label and `tag = -1`. -/
def NFA.add_transition (n : NFA) (f t : Nat) (onehot : Nat) : NFA :=
  { n with transitions := n.transitions ++ [⟨f, t, onehot, -1⟩] }

/-- `NFA::add_transition_from_range`. -/
def NFA.add_transition_from_range (n : NFA) (f t : Nat) (range : Option (Nat × Nat)) : NFA :=
  n.add_transition f t (convert_char_range_to_symbol_onehot_encoding range)

/-- `NFA::add_epsilon_transition`. -/
def NFA.add_epsilon_transition (n : NFA) (f t : Nat) : NFA :=
  n.add_transition f t EPSILON_TRANSITION

/-- `NFA::get_transitions_from_state` (the `HashMap` lookup): the sub-list of
transitions leaving `s`, in insertion order. -/
def transitions_from_state (ts : List Transition) (s : Nat) : List Transition :=
  ts.filter (fun t => t.src == s)

/-- `fn get_ascii_char(c: char) -> Result<u8>`: characters are modelled by
their code points, `is_ascii` is `c ≤ 127`. -/
def get_ascii_char (c : Nat) : Except Error Nat :=
  if c ≤ 127 then .ok c else .error .NoneASCIICharacters

/-- `regex_syntax::ast::ClassPerlKind` (the three kinds matched by
`add_perl`). -/
inductive ClassPerlKind where
  | Digit | Space | Word
deriving DecidableEq

/-- `regex_syntax::ast::ClassPerl`: a Perl class with negation flag. -/
structure ClassPerl where
  negated : Bool
  kind : ClassPerlKind
deriving DecidableEq

/-- `regex_syntax::ast::RepetitionRange`. -/
inductive RepetitionRange where
  | Exactly (n : Nat)
  | AtLeast (n : Nat)
  | Bounded (b e : Nat)
deriving DecidableEq

/-- `regex_syntax::ast::RepetitionKind`. -/
inductive RepetitionKind where
  | ZeroOrOne | ZeroOrMore | OneOrMore
  | Range (r : RepetitionRange)
deriving DecidableEq

/-- `regex_syntax::ast::GroupKind`: only `CaptureIndex` is supported by
`add_group`; the other two variants land in its `_` arm. -/
inductive GroupKind where
  | CaptureIndex (i : Nat)
  | CaptureName (name : String)
  | NonCapturing
deriving DecidableEq

mutual
/-- `regex_syntax::ast::ClassSet`: `add_bracketed` handles `Item` and rejects
the `BinaryOp` variant. -/
inductive ClassSet where
  | Item (item : ClassSetItem)
  | BinaryOp

/-- `regex_syntax::ast::ClassSetItem`: characters are code points; the
variants not matched by `add_class_set_item` (`Empty`, `Ascii`, `Unicode`)
are collapsed into `OtherItem`, which lands in its `_` arm. -/
inductive ClassSetItem where
  | Literal (c : Nat)
  | Bracketed (negated : Bool) (kind : ClassSet)
  | Range (startc endc : Nat)
  | Perl (p : ClassPerl)
  | Union (items : List ClassSetItem)
  | OtherItem
end

/-- `regex_syntax::ast::Ast`: the eight variants matched by `add_ast_to_nfa`;
the remaining ones (`Empty`, `Flags`, `Assertion`, `ClassUnicode`) are
collapsed into `OtherAst`, which lands in its `_` arm. A `Repetition` is
flattened to its `greedy` flag, its `op.kind` and its sub-`ast`. -/
inductive Ast where
  | Literal (c : Nat)
  | Dot
  | ClassPerl (p : ClassPerl)
  | Repetition (greedy : Bool) (kind : RepetitionKind) (ast : Ast)
  | Concat (asts : List Ast)
  | ClassBracketed (negated : Bool) (kind : ClassSet)
  | Alternation (asts : List Ast)
  | Group (kind : GroupKind) (ast : Ast)
  | OtherAst

/-- `NFA::get_repetition_range`. -/
def get_repetition_range : RepetitionKind → Nat × Option Nat
  | .ZeroOrOne => (0, some 1)
  | .ZeroOrMore => (0, none)
  | .OneOrMore => (1, none)
  | .Range (.Exactly n) => (n, some n)
  | .Range (.AtLeast n) => (n, none)
  | .Range (.Bounded b e) => (b, some e)

/-- `NFA::add_literal`. -/
def add_literal (c : Nat) (s e : Nat) (n : NFA) : Except Error NFA :=
  match get_ascii_char c with
  | .ok c2 => .ok (n.add_transition_from_range s e (some (c2, c2)))
  | .error err => .error err

/-- `NFA::add_dot`. -/
def add_dot (s e : Nat) (n : NFA) : Except Error NFA :=
  .ok (n.add_transition s e DOT_TRANSITION)

/-- `NFA::add_perl`. -/
def add_perl (p : ClassPerl) (s e : Nat) (n : NFA) : Except Error NFA :=
  if p.negated then .error (.NegationNotSupported "Negation in perl not yet supported.")
  else
    match p.kind with
    | .Digit => .ok (n.add_transition s e DIGIT_TRANSITION)
    | .Space => .ok (n.add_transition s e SPACE_TRANSITION)
    | .Word => .ok (n.add_transition s e WORD_TRANSITION)

/-- `NFA::add_range` (the two `get_ascii_char` calls run left to right, as in
the tuple expression of the source). -/
def add_range (a b : Nat) (s e : Nat) (n : NFA) : Except Error NFA :=
  match get_ascii_char a with
  | .error err => .error err
  | .ok a2 =>
    match get_ascii_char b with
    | .error err => .error err
    | .ok b2 => .ok (n.add_transition_from_range s e (some (a2, b2)))

mutual

/-- `NFA::add_bracketed`. -/
def add_bracketed (negated : Bool) (kind : ClassSet) (s e : Nat) (n : NFA) : Except Error NFA :=
  if negated then .error (.NegationNotSupported "Negation in bracket not yet supported")
  else
    match kind with
    | .Item item => add_class_set_item item s e n
    | .BinaryOp => .error .UnsupportedAstBracketedKind

/-- `NFA::add_class_set_item`. -/
def add_class_set_item (item : ClassSetItem) (s e : Nat) (n : NFA) : Except Error NFA :=
  match item with
  | .Literal c => add_literal c s e n
  | .Bracketed neg kind => add_bracketed neg kind s e n
  | .Range a b => add_range a b s e n
  | .Perl p => add_perl p s e n
  | .Union items => add_union items s e n
  | .OtherItem => .error .UnsupportedClassSetType

/-- `NFA::add_union`: chain the items; every item except the last gets a fresh
intermediate end state. -/
def add_union (items : List ClassSetItem) (s e : Nat) (n : NFA) : Except Error NFA :=
  match items with
  | [] => .ok n
  | [item] => add_class_set_item item s e n
  | item :: rest =>
    let p := n.new_state
    match add_class_set_item item s p.1 p.2 with
    | .ok n2 => add_union rest p.1 e n2
    | .error err => .error err

end

mutual

/-- `NFA::add_ast_to_nfa`: dispatch on the AST variant. -/
def add_ast_to_nfa (ast : Ast) (s e : Nat) (n : NFA) : Except Error NFA :=
  match ast with
  | .Literal c => add_literal c s e n
  | .Dot => add_dot s e n
  | .ClassPerl p => add_perl p s e n
  | .Repetition greedy kind inner => add_repetition greedy kind inner s e n
  | .Concat asts => add_concat asts s e n
  | .ClassBracketed neg k => add_bracketed neg k s e n
  | .Alternation asts => add_alternation asts s e n
  | .Group gk inner => add_group gk inner s e n
  | .OtherAst => .error (.UnsupportedAstNodeType "Ast Type not supported")
termination_by (sizeOf ast, 0, 0)

/-- `NFA::add_group`. -/
def add_group (gk : GroupKind) (inner : Ast) (s e : Nat) (n : NFA) : Except Error NFA :=
  match gk with
  | .CaptureIndex _ => add_ast_to_nfa inner s e n
  | _ => .error .UnsupportedGroupKindType
termination_by (sizeOf inner, 1, 0)

/-- `NFA::add_repetition`. The `for _ in 1..min` loop together with the final
call targeting the range-bound state appears as `add_chain inner (min - 1)`
followed by one more `add_ast_to_nfa`; the `for _ in min..max` loop is
`add_chain_eps inner (max - min)`. -/
def add_repetition (greedy : Bool) (kind : RepetitionKind) (inner : Ast) (s e : Nat) (n : NFA) :
    Except Error NFA :=
  if greedy = false then .error .NonGreedyRepetitionNotSupported
  else
    let mm := get_repetition_range kind
    let p := n.new_state
    let afterMin : Except Error NFA :=
      if mm.1 = 0 then .ok (p.2.add_epsilon_transition s p.1)
      else
        match add_chain inner (mm.1 - 1) s p.2 with
        | .error err => .error err
        | .ok q => add_ast_to_nfa inner q.1 p.1 q.2
    match afterMin with
    | .error err => .error err
    | .ok n2 =>
      let n3 := n2.add_epsilon_transition p.1 e
      match mm.2 with
      | none => add_ast_to_nfa inner p.1 p.1 n3
      | some mx =>
        if mm.1 = mx then .ok n3
        else add_chain_eps inner (mx - mm.1) p.1 e n3
termination_by (sizeOf inner, 2, 0)

/-- The `for _ in 1..min` loop of `add_repetition`: `k` times, allocate an
intermediate state and compile `inner` from the current start to it, returning
the final current start together with the updated NFA. -/
def add_chain (inner : Ast) (k : Nat) (cur : Nat) (n : NFA) : Except Error (Nat × NFA) :=
  match k with
  | 0 => .ok (cur, n)
  | k' + 1 =>
    let p := n.new_state
    match add_ast_to_nfa inner cur p.1 p.2 with
    | .ok n2 => add_chain inner k' p.1 n2
    | .error err => .error err
termination_by (sizeOf inner, 1, k)

/-- The `for _ in min..max` loop of `add_repetition`: `k` times, allocate an
intermediate state, compile `inner` into it and add an epsilon edge from it to
`e`. -/
def add_chain_eps (inner : Ast) (k : Nat) (cur : Nat) (e : Nat) (n : NFA) : Except Error NFA :=
  match k with
  | 0 => .ok n
  | k' + 1 =>
    let p := n.new_state
    match add_ast_to_nfa inner cur p.1 p.2 with
    | .ok n2 => add_chain_eps inner k' p.1 e (n2.add_epsilon_transition p.1 e)
    | .error err => .error err
termination_by (sizeOf inner, 1, k)

/-- `NFA::add_concat`: chain the sub-ASTs, every one except the last through a
fresh intermediate state. -/
def add_concat (asts : List Ast) (s e : Nat) (n : NFA) : Except Error NFA :=
  match asts with
  | [] => .ok n
  | [a] => add_ast_to_nfa a s e n
  | a :: rest =>
    let p := n.new_state
    match add_ast_to_nfa a s p.1 p.2 with
    | .ok n2 => add_concat rest p.1 e n2
    | .error err => .error err
termination_by (sizeOf asts, 0, 0)

/-- `NFA::add_alternation`: each branch gets fresh entry/exit states wired by
epsilon edges to `s` and `e`. -/
def add_alternation (asts : List Ast) (s e : Nat) (n : NFA) : Except Error NFA :=
  match asts with
  | [] => .ok n
  | a :: rest =>
    let p1 := n.new_state
    let p2 := p1.2.new_state
    let n3 := (p2.2.add_epsilon_transition s p1.1).add_epsilon_transition p2.1 e
    match add_ast_to_nfa a p1.1 p2.1 n3 with
    | .ok n5 => add_alternation rest s e n5
    | .error err => .error err
termination_by (sizeOf asts, 0, 0)

end

/-! ## `NFA::epsilon_closure` and `NFA::get_combined_state_names` -/

/-- The body of the inner `for transition in transitions` loop of
`NFA::epsilon_closure`: for each epsilon edge whose target is not yet in the
closure, push the target onto the closure (at the back) and onto the stack
(the head of the list is the top of the Rust `Vec`). -/
def process_eps_transitions :
    List Transition → List Nat → List Nat → List Nat × List Nat
  | [], closure, stack => (closure, stack)
  | t :: rest, closure, stack =>
    if t.sym = 0 then
      if closure.contains t.dst then process_eps_transitions rest closure stack
      else process_eps_transitions rest (closure ++ [t.dst]) (t.dst :: stack)
    else process_eps_transitions rest closure stack

/-- The `while let Some(state) = stack.pop()` loop of `NFA::epsilon_closure`.
The Rust loop carries no fuel; `fuel` only bounds the number of iterations so
that the function is structurally recursive, and the termination theorem for
the epsilon closure proves that with fuel `|seed| + |transitions|` the loop
always drains its stack, so the bound is never hit. -/
def epsilon_closure_loop (ts : List Transition) :
    Nat → List Nat → List Nat → List Nat × List Nat
  | 0, closure, stack => (closure, stack)
  | fuel + 1, closure, stack =>
    match stack with
    | [] => (closure, [])
    | state :: rest =>
      let p := process_eps_transitions (transitions_from_state ts state) closure rest
      epsilon_closure_loop ts fuel p.1 p.2

/-- `NFA::epsilon_closure`: closure and stack both start as a copy of the seed
vector (the stack is reversed because the Rust `Vec` pops from the back). -/
def NFA.epsilon_closure (n : NFA) (states : List Nat) : List Nat :=
  (epsilon_closure_loop n.transitions (states.length + n.transitions.length)
    states states.reverse).1

/-- The string comparison used by `Vec::<String>::sort()`: lexicographic order
on the character sequences (identical to Rust's byte-wise `Ord` on the ASCII
strings produced by `to_string` on state indices). -/
def string_le (a b : String) : Prop := a.data ≤ b.data

instance : DecidableRel string_le :=
  fun a b => inferInstanceAs (Decidable (a.data ≤ b.data))

instance : IsTrans String string_le := ⟨fun _ _ _ h1 h2 => le_trans h1 h2⟩

instance : IsTotal String string_le := ⟨fun a b => le_total a.data b.data⟩

/-- `NFA::get_combined_state_names`: map each state index to its decimal
string, `sort()` the strings (a stable comparison sort, modelled by insertion
sort over the same order), and join with commas. -/
def get_combined_state_names (states : List Nat) : String :=
  String.intercalate "," (List.insertionSort string_le (states.map (fun s => Nat.repr s)))

/-! ## `SchemaConfig` (`src/parser/schema_parser/parser.rs`)

`TimestampSchema::new` and `VarSchema::new` call `RegexParser::parse_into_ast`,
whose source is not part of the embedded files; the schema loader is therefore
parameterised by an arbitrary regex parsing function
`parse : String → Except Error Ast`, and every theorem about it holds for all
such functions. -/

/-- A `serde_yaml::Value` as consumed by `load_from_kv_pairs`: the variants it
does not inspect (`Null`, `Bool`, `Number`, `Tagged`) are collapsed into
`OtherVal`. A `Mapping` keeps its (insertion-ordered) key/value pairs. -/
inductive Value where
  | Str (s : String)
  | Sequence (l : List Value)
  | Mapping (l : List (Value × Value))
  | OtherVal

/-- `TimestampSchema`: the pattern string and its parsed AST. -/
structure TimestampSchema where
  regex : String
  ast : Ast

/-- `VarSchema`: variable name, pattern string and parsed AST. -/
structure VarSchema where
  name : String
  regex : String
  ast : Ast

/-- `TimestampSchema::new`, with the regex parser passed in. -/
def TimestampSchema.new (parse : String → Except Error Ast) (regex : String) :
    Except Error TimestampSchema :=
  match parse regex with
  | .ok ast => .ok ⟨regex, ast⟩
  | .error err => .error err

/-- `VarSchema::new`, with the regex parser passed in. -/
def VarSchema.new (parse : String → Except Error Ast) (name regex : String) :
    Except Error VarSchema :=
  match parse regex with
  | .ok ast => .ok ⟨name, regex, ast⟩
  | .error err => .error err

/-- `SchemaConfig`: timestamp schemas, variable schemas (document order), and
the `[bool; 128]` delimiter table (as a list of length 128). -/
structure SchemaConfig where
  ts_schemas : List TimestampSchema
  var_schemas : List VarSchema
  delimiters : List Bool

/-- `SchemaConfig::has_delimiter`: `false` for non-ASCII characters, else the
table entry. -/
def SchemaConfig.has_delimiter (cfg : SchemaConfig) (c : Nat) : Bool :=
  if 127 < c then false else cfg.delimiters.getD c false

/-- `SchemaConfig::get_key_value`: look the key up in the parsed YAML mapping
(`HashMap<String, Value>`), `MissingSchemaKey` if absent. -/
def get_key_value (kv : List (String × Value)) (key : String) : Except Error Value :=
  match kv.lookup key with
  | some v => .ok v
  | none => .error (.MissingSchemaKey key)

/-- The `try_for_each` over the `timestamp` sequence in `load_from_kv_pairs`:
each element must be a string and its regex must parse; processing stops at
the first failure. -/
def load_timestamps (parse : String → Except Error Ast) :
    List Value → Except Error (List TimestampSchema)
  | [] => .ok []
  | v :: rest =>
    match v with
    | .Str s =>
      match TimestampSchema.new parse s with
      | .ok sch =>
        match load_timestamps parse rest with
        | .ok schs => .ok (sch :: schs)
        | .error err => .error err
      | .error err => .error err
    | _ => .error .InvalidSchema

/-- The `for (key, value) in map` loop over the `variables` mapping in
`load_from_kv_pairs`: both key and value must be strings. -/
def load_vars (parse : String → Except Error Ast) :
    List (Value × Value) → Except Error (List VarSchema)
  | [] => .ok []
  | (k, v) :: rest =>
    match k, v with
    | .Str name, .Str regex =>
      match VarSchema.new parse name regex with
      | .ok sch =>
        match load_vars parse rest with
        | .ok schs => .ok (sch :: schs)
        | .error err => .error err
      | .error err => .error err
    | _, _ => .error .InvalidSchema

/-- The `for c in delimiter_str.chars()` loop of `load_from_kv_pairs`: a
non-ASCII character aborts with `NoneASCIICharacters`, an ASCII one sets its
table entry. -/
def set_delimiters : List Char → List Bool → Except Error (List Bool)
  | [], d => .ok d
  | c :: rest, d =>
    if 127 < c.toNat then .error .NoneASCIICharacters
    else set_delimiters rest (d.set c.toNat true)

/-- `SchemaConfig::load_from_kv_pairs`: handle `timestamp`, then `variables`,
then `delimiters` (in this order), and finally force `'\n'` (code point 10)
to be a delimiter. -/
def load_from_kv_pairs (parse : String → Except Error Ast) (kv : List (String × Value)) :
    Except Error SchemaConfig :=
  match get_key_value kv "timestamp" with
  | .error err => .error err
  | .ok tval =>
    match tval with
    | .Sequence seq =>
      match load_timestamps parse seq with
      | .error err => .error err
      | .ok ts_schemas =>
        match get_key_value kv "variables" with
        | .error err => .error err
        | .ok vval =>
          match vval with
          | .Mapping m =>
            match load_vars parse m with
            | .error err => .error err
            | .ok var_schemas =>
              match get_key_value kv "delimiters" with
              | .error err => .error err
              | .ok dval =>
                match dval with
                | .Str dstr =>
                  match set_delimiters dstr.data (List.replicate 128 false) with
                  | .error err => .error err
                  | .ok d => .ok ⟨ts_schemas, var_schemas, d.set 10 true⟩
                | _ => .error .InvalidSchema
          | _ => .error .InvalidSchema
    | _ => .error .InvalidSchema

/-! ## `LogParser` (`src/log_parser/log_parser.rs`)

The lexer (`src/lexer`, not among the embedded files) is abstracted as the
list of tokens it would produce: `get_next_token` yields the head of that
list. `Token` and `TokenType` are modelled from the spec: a token is a type,
its lexeme bytes and the 1-based line number at which the lexeme began. -/

/-- Modelled from the spec: `TokenType` of the lexer (declared in
`src/lexer`, which is not among the embedded files); spec §3:
`Timestamp(pattern-id)`, `Variable(pattern-id)`, `StaticText`, `Whitespace`,
`Newline`. -/
inductive TokenType where
  | Timestamp (id : Nat)
  | Variable (id : Nat)
  | StaticText
  | Whitespace
  | Newline
deriving DecidableEq

/-- Modelled from the spec: a lexer `Token` (type, lexeme bytes, line
number). -/
structure Token where
  token_type : TokenType
  bytes : List Nat
  line_num : Nat
deriving DecidableEq

/-- `LogEvent` of `log_parser.rs` (the `Rc<SchemaConfig>` field is carried
along unchanged). -/
structure LogEvent where
  tokens : List Token
  line_range : Nat × Nat
  has_timestamp : Bool
  schema_config : SchemaConfig

/-- `LogEvent::new`: an empty token vector is a `LogParserInternalErr`;
otherwise `has_timestamp` is whether the first token is a timestamp and
`line_range` spans the first and last tokens' line numbers. -/
def LogEvent.new (cfg : SchemaConfig) (tokens : List Token) :
    Except Error (Option LogEvent) :=
  match tokens with
  | [] => .error (.LogParserInternalErr "The given token vector is empty")
  | first :: rest =>
    let has_timestamp :=
      match first.token_type with
      | .Timestamp _ => true
      | _ => false
    .ok (some ⟨first :: rest, (first.line_num, (List.getLastD rest first).line_num),
      has_timestamp, cfg⟩)

/-- `LogParser::buffer_token`: if the buffer `Option` is `None`, replace it by
a fresh vector first, then push. -/
def buffer_token (buf : Option (List Token)) (t : Token) : Option (List Token) :=
  match buf with
  | none => some [t]
  | some ts => some (ts ++ [t])

/-- `LogParser::emit_buffered_tokens_as_log_event`: `take()` the buffer
(leaving `None`) and build a `LogEvent` from it; a `None` buffer yields no
event. Returns the produced event together with the buffer afterwards. -/
def emit_buffered_tokens_as_log_event (cfg : SchemaConfig) (buf : Option (List Token)) :
    Except Error (Option LogEvent × Option (List Token)) :=
  match buf with
  | some ts =>
    match LogEvent.new cfg ts with
    | .ok ev => .ok (ev, none)
    | .error err => .error err
  | none => .ok (none, none)

/-- `LogParser::parse_next_log_event`, with the lexer abstracted as the token
stream `stream`. Returns the produced event (if any), the rest of the stream
and the token buffer afterwards. On a timestamp token with a non-`None` buffer
the buffer is emitted (an error propagates through `?`), then the timestamp
seeds the next buffer; on end of stream the buffer is flushed. -/
def parse_next_log_event (cfg : SchemaConfig) :
    List Token → Option (List Token) →
    Except Error (Option LogEvent × List Token × Option (List Token))
  | [], buf =>
    match emit_buffered_tokens_as_log_event cfg buf with
    | .error err => .error err
    | .ok (ev, buf2) => .ok (ev, [], buf2)
  | tok :: rest, buf =>
    match tok.token_type with
    | .Timestamp _ =>
      match buf with
      | none => parse_next_log_event cfg rest (buffer_token none tok)
      | some ts =>
        match emit_buffered_tokens_as_log_event cfg (some ts) with
        | .error err => .error err
        | .ok (ev, buf2) => .ok (ev, rest, buffer_token buf2 tok)
    | _ => parse_next_log_event cfg rest (buffer_token buf tok)

/-- `LogParser::new` leaves the token buffer as `Some(Vec::new())`: the state
in which the very first `parse_next_log_event` call runs. -/
def initial_token_buffer : Option (List Token) := some []

/-! ## Concrete fixtures used by the claim theorems -/

/-- A schema configuration with no patterns and no schema-declared
delimiters. -/
def empty_schema_config : SchemaConfig := ⟨[], [], List.replicate 128 false⟩

/-- A timestamp token (pattern 0, lexeme `"2"`, line 1). -/
def sample_timestamp_token : Token := ⟨.Timestamp 0, [50], 1⟩

/-! ## Claim theorems -/

/-- C1. The claim says that a Timestamp token arriving while the token buffer
is empty is pushed and reading continues, with no error for that step. The
code instead tests `self.tokens.is_none()`: in the state `LogParser::new`
creates (`Some(Vec::new())`, an empty but present buffer), the very first
Timestamp token takes the emit branch, which calls `LogEvent::new` on the
empty vector and propagates `LogParserInternalErr`. This theorem evaluates
the parser at that failing input. -/
theorem timestamp_on_empty_buffer_errs :
    parse_next_log_event empty_schema_config [sample_timestamp_token] initial_token_buffer =
      .error (.LogParserInternalErr "The given token vector is empty") := by
  rfl

/-- C2. The claim says a token stream that reaches end-of-stream with an
empty buffer — in particular a stream yielding no tokens at all — makes
`parse_next_log_event` return empty rather than an error. In the initial
state the buffer is `Some(Vec::new())`, so the end-of-stream flush calls
`LogEvent::new` on the empty vector and returns `LogParserInternalErr`
instead. This theorem evaluates the parser at that failing input. -/
theorem empty_stream_errs :
    parse_next_log_event empty_schema_config [] initial_token_buffer =
      .error (.LogParserInternalErr "The given token vector is empty") := by
  rfl

/-- C3 counterexample. The claim says state indices are joined in ascending
numeric order, with `{10, 2}` yielding `"2,10"`; the code sorts the decimal
strings (`names.sort()` on `Vec<String>`), and `"10" < "2"`
lexicographically, so the result is `"10,2"`. -/
theorem get_combined_state_names_not_numeric :
    get_combined_state_names [10, 2] ≠ "2,10" := by
  decide

/-- C3 (amended). `get_combined_state_names` returns the decimal
representations of the state indices sorted in lexicographic string order
(the order `Vec::<String>::sort()` uses), joined by commas; e.g. states
`{10, 2}` yield `"10,2"`. -/
theorem get_combined_state_names_sorted_lex :
    (∀ states : List Nat, ∃ l : List String,
      (states.map (fun s => Nat.repr s)).Perm l ∧ l.Sorted string_le ∧
      get_combined_state_names states = String.intercalate "," l) ∧
    get_combined_state_names [10, 2] = "10,2" := by
  constructor
  · intro states
    exact ⟨List.insertionSort string_le (states.map (fun s => Nat.repr s)),
      (List.perm_insertionSort string_le _).symm,
      List.sorted_insertionSort string_le _, rfl⟩
  · decide

/-- C8. Compiling `a{3,6}` from the initial two-state NFA yields exactly 8
states, three `'a'` edges chaining 0→3→4→2, an epsilon 2→1, further `'a'`
edges 2→5, 5→6, 6→7, and an epsilon from each of 5, 6, 7 to state 1 —
and nothing else. -/
theorem repetition_a_3_6_layout :
    add_ast_to_nfa (.Repetition true (.Range (.Bounded 3 6)) (.Literal 97)) 0 1 NFA.new =
      .ok { start := 0, accept := 1, states := [0, 1, 2, 3, 4, 5, 6, 7],
            transitions :=
              [⟨0, 3, convert_char_to_symbol_onehot_encoding 97, -1⟩,
               ⟨3, 4, convert_char_to_symbol_onehot_encoding 97, -1⟩,
               ⟨4, 2, convert_char_to_symbol_onehot_encoding 97, -1⟩,
               ⟨2, 1, EPSILON_TRANSITION, -1⟩,
               ⟨2, 5, convert_char_to_symbol_onehot_encoding 97, -1⟩,
               ⟨5, 1, EPSILON_TRANSITION, -1⟩,
               ⟨5, 6, convert_char_to_symbol_onehot_encoding 97, -1⟩,
               ⟨6, 1, EPSILON_TRANSITION, -1⟩,
               ⟨6, 7, convert_char_to_symbol_onehot_encoding 97, -1⟩,
               ⟨7, 1, EPSILON_TRANSITION, -1⟩] } := by
  simp [add_ast_to_nfa, add_repetition, add_chain, add_chain_eps, add_literal, get_ascii_char,
    get_repetition_range, NFA.new, NFA.new_state, NFA.add_transition_from_range,
    NFA.add_transition, NFA.add_epsilon_transition, convert_char_range_to_symbol_onehot_encoding,
    convert_char_to_symbol_onehot_encoding, EPSILON_TRANSITION, List.range']

/-- C4 counterexample. For `min = max = 0` (here `Exactly(0)` over the inner
literal `'a'`) the claim allows zero inner copies plus a single epsilon
transition and nothing else — one transition in total. The code instead emits
two epsilon transitions, `start → R` and `R → end` through the fresh
range-bound state `R = 2`. -/
theorem exactly_zero_repetition_emits_two_epsilons :
    add_ast_to_nfa (.Repetition true (.Range (.Exactly 0)) (.Literal 97)) 0 1 NFA.new =
      .ok { start := 0, accept := 1, states := [0, 1, 2],
            transitions := [⟨0, 2, EPSILON_TRANSITION, -1⟩, ⟨2, 1, EPSILON_TRANSITION, -1⟩] } ∧
    ([⟨0, 2, EPSILON_TRANSITION, -1⟩, ⟨2, 1, EPSILON_TRANSITION, -1⟩] :
      List Transition).length ≠ 1 := by
  constructor
  · simp [add_ast_to_nfa, add_repetition, get_repetition_range, NFA.new, NFA.new_state,
      NFA.add_epsilon_transition, NFA.add_transition, EPSILON_TRANSITION]
  · decide

/-- C4 (amended). For a greedy repetition whose lowered range has
`min = max = k` (`Exactly(k)` and `Bounded(k,k)` behave identically): if
`k ≥ 1` the emitted fragment is exactly `k` copies of the inner fragment
chained from the start state to the fresh range-bound state `R` (`k - 1`
fresh intermediates, then the final copy into `R`), plus one epsilon
transition from `R` to the fragment's end state, and nothing else — in
particular the `max`-side loop contributes nothing; if `k = 0` the fragment
is instead two epsilon transitions, `start → R` and `R → end`, with no inner
copies. -/
theorem repetition_min_eq_max_layout :
    ∀ (a : Ast) (k s e : Nat) (n : NFA),
    add_ast_to_nfa (.Repetition true (.Range (.Exactly k)) a) s e n =
      (if k = 0 then
        .ok ((n.new_state.2.add_epsilon_transition s n.new_state.1).add_epsilon_transition
          n.new_state.1 e)
      else
        match add_chain a (k - 1) s n.new_state.2 with
        | .error err => .error err
        | .ok q =>
          match add_ast_to_nfa a q.1 n.new_state.1 q.2 with
          | .error err => .error err
          | .ok n2 => .ok (n2.add_epsilon_transition n.new_state.1 e)) ∧
    add_ast_to_nfa (.Repetition true (.Range (.Bounded k k)) a) s e n =
      add_ast_to_nfa (.Repetition true (.Range (.Exactly k)) a) s e n := by
  intro a k s e n
  constructor
  · rw [add_ast_to_nfa, add_repetition]
    by_cases hk : k = 0
    · subst hk
      simp [get_repetition_range]
    · simp only [get_repetition_range, hk, if_false, Bool.true_eq_false, if_true]
      rcases h1 : add_chain a (k - 1) s n.new_state.2 with err | q
      · simp
      · rcases h2 : add_ast_to_nfa a q.1 n.new_state.1 q.2 with err | n2 <;> simp
  · rw [add_ast_to_nfa, add_repetition, add_ast_to_nfa, add_repetition]
    simp [get_repetition_range]

/-! ## Termination of `epsilon_closure` (C7) -/

/-- The number of transitions whose epsilon step could still enlarge the
closure: epsilon edges whose target is not yet in `closure`. Together with
the stack length this strictly decreases at each iteration of the closure
loop. -/
def eps_new_count (ts : List Transition) (closure : List Nat) : Nat :=
  ts.countP (fun t => t.sym == 0 && !(closure.contains t.dst))

theorem countP_lt_of_mem {α : Type} {l : List α} {p q : α → Bool}
    (hmono : ∀ a ∈ l, q a = true → p a = true)
    (x : α) (hx : x ∈ l) (hp : p x = true) (hq : q x = false) :
    l.countP q < l.countP p := by
  induction l with
  | nil => cases hx
  | cons a l ih =>
    rw [List.countP_cons, List.countP_cons]
    rcases List.mem_cons.mp hx with h | h
    · subst h
      have hle : l.countP q ≤ l.countP p := by
        apply List.countP_mono_left
        intro b hb
        exact hmono b (List.mem_cons_of_mem _ hb)
      simp [hp, hq]
      omega
    · have hlt : l.countP q < l.countP p :=
        ih (fun b hb => hmono b (List.mem_cons_of_mem _ hb)) h
      by_cases hqa : q a = true
      · have hpa := hmono a (List.mem_cons_self a l) hqa
        simp only [hqa, hpa]
        omega
      · simp only [Bool.not_eq_true] at hqa
        simp only [hqa, Bool.false_eq_true, if_false]
        omega

theorem process_eps_transitions_measure (ts : List Transition) :
    ∀ (l : List Transition) (c st : List Nat), (∀ t ∈ l, t ∈ ts) →
    (process_eps_transitions l c st).2.length +
        eps_new_count ts (process_eps_transitions l c st).1 ≤
      st.length + eps_new_count ts c := by
  intro l
  induction l with
  | nil => intro c st _; simp [process_eps_transitions]
  | cons t rest ih =>
    intro c st hsub
    have hrest : ∀ u ∈ rest, u ∈ ts := fun u hu => hsub u (List.mem_cons_of_mem _ hu)
    rw [process_eps_transitions]
    by_cases hsym : t.sym = 0
    · rw [if_pos hsym]
      by_cases hmem : c.contains t.dst = true
      · rw [if_pos hmem]
        exact ih c st hrest
      · rw [if_neg hmem]
        have hIH := ih (c ++ [t.dst]) (t.dst :: st) hrest
        have hlt : eps_new_count ts (c ++ [t.dst]) < eps_new_count ts c := by
          refine countP_lt_of_mem ?_ t (hsub t (List.mem_cons_self t rest)) ?_ ?_
          · intro a _ hq
            simp only [Bool.and_eq_true, Bool.not_eq_true'] at hq ⊢
            refine ⟨hq.1, ?_⟩
            cases hcc : c.contains a.dst with
            | false => rfl
            | true =>
              have hconsapp : (c ++ [t.dst]).contains a.dst = true :=
                List.elem_iff.mpr (List.mem_append.mpr (Or.inl (List.elem_iff.mp hcc)))
              rw [hconsapp] at hq
              exact absurd hq.2 (by simp)
          · simp only [Bool.and_eq_true, Bool.not_eq_true', beq_iff_eq]
            exact ⟨hsym, by simpa using hmem⟩
          · have hselfmem : (c ++ [t.dst]).contains t.dst = true :=
              List.elem_iff.mpr (by simp)
            simp [hselfmem]
        simp only [List.length_cons] at hIH
        omega
    · rw [if_neg hsym]
      exact ih c st hrest

theorem epsilon_closure_loop_drains (ts : List Transition) :
    ∀ (fuel : Nat) (c st : List Nat), st.length + eps_new_count ts c ≤ fuel →
    (epsilon_closure_loop ts fuel c st).2 = [] := by
  intro fuel
  induction fuel with
  | zero =>
    intro c st h
    have : st = [] := by
      cases st with
      | nil => rfl
      | cons a l => simp at h
    subst this
    rfl
  | succ fuel ih =>
    intro c st h
    match st with
    | [] => rfl
    | state :: rest =>
      rw [epsilon_closure_loop]
      apply ih
      have hsub : ∀ t ∈ transitions_from_state ts state, t ∈ ts := by
        intro t ht
        exact List.mem_of_mem_filter ht
      have := process_eps_transitions_measure ts (transitions_from_state ts state) c rest hsub
      simp only [List.length_cons] at h
      omega

/-- C7. `epsilon_closure` terminates on every NFA and every seed set,
including NFAs with epsilon cycles: the worklist loop drains its stack within
`|seed| + |transitions|` iterations (the fuel `NFA.epsilon_closure` passes),
so the fuel bound of the embedding is never reached and the Rust `while` loop
performs the same, finite, number of iterations. -/
theorem epsilon_closure_loop_terminates :
    ∀ (n : NFA) (S : List Nat),
    (epsilon_closure_loop n.transitions (S.length + n.transitions.length) S S.reverse).2 = [] ∧
    NFA.epsilon_closure n S =
      (epsilon_closure_loop n.transitions (S.length + n.transitions.length) S S.reverse).1 := by
  intro n S
  refine ⟨?_, rfl⟩
  apply epsilon_closure_loop_drains
  have h1 : eps_new_count n.transitions S ≤ n.transitions.length := List.countP_le_length _
  simp only [List.length_reverse]
  omega

/-! ## `epsilon_closure` computes the least epsilon-closed superset (C6) -/

theorem process_eps_transitions_closure_mono :
    ∀ (l : List Transition) (c st : List Nat), c ⊆ (process_eps_transitions l c st).1 := by
  intro l
  induction l with
  | nil => intro c st; simp [process_eps_transitions]
  | cons t rest ih =>
    intro c st
    rw [process_eps_transitions]
    by_cases hsym : t.sym = 0
    · rw [if_pos hsym]
      by_cases hmem : c.contains t.dst = true
      · rw [if_pos hmem]; exact ih c st
      · rw [if_neg hmem]
        intro x hx
        exact ih (c ++ [t.dst]) (t.dst :: st) (List.mem_append.mpr (Or.inl hx))
    · rw [if_neg hsym]; exact ih c st

theorem process_eps_transitions_stack_mono :
    ∀ (l : List Transition) (c st : List Nat), st ⊆ (process_eps_transitions l c st).2 := by
  intro l
  induction l with
  | nil => intro c st; simp [process_eps_transitions]
  | cons t rest ih =>
    intro c st
    rw [process_eps_transitions]
    by_cases hsym : t.sym = 0
    · rw [if_pos hsym]
      by_cases hmem : c.contains t.dst = true
      · rw [if_pos hmem]; exact ih c st
      · rw [if_neg hmem]
        intro x hx
        exact ih (c ++ [t.dst]) (t.dst :: st) (List.mem_cons_of_mem _ hx)
    · rw [if_neg hsym]; exact ih c st

theorem process_eps_transitions_covers :
    ∀ (l : List Transition) (c st : List Nat),
    ∀ t ∈ l, t.sym = 0 → t.dst ∈ (process_eps_transitions l c st).1 := by
  intro l
  induction l with
  | nil => intro c st t ht; cases ht
  | cons u rest ih =>
    intro c st t ht hsym0
    rw [process_eps_transitions]
    rcases List.mem_cons.mp ht with h | h
    · subst h
      rw [if_pos hsym0]
      by_cases hmem : c.contains t.dst = true
      · rw [if_pos hmem]
        exact process_eps_transitions_closure_mono rest c st (List.elem_iff.mp hmem)
      · rw [if_neg hmem]
        exact process_eps_transitions_closure_mono rest (c ++ [t.dst]) (t.dst :: st)
          (List.mem_append.mpr (Or.inr (List.mem_singleton.mpr rfl)))
    · by_cases hsym : u.sym = 0
      · rw [if_pos hsym]
        by_cases hmem : c.contains u.dst = true
        · rw [if_pos hmem]; exact ih c st t h hsym0
        · rw [if_neg hmem]; exact ih (c ++ [u.dst]) (u.dst :: st) t h hsym0
      · rw [if_neg hsym]; exact ih c st t h hsym0

theorem process_eps_transitions_closure_cases :
    ∀ (l : List Transition) (c st : List Nat),
    ∀ x ∈ (process_eps_transitions l c st).1, x ∈ c ∨ x ∈ (process_eps_transitions l c st).2 := by
  intro l
  induction l with
  | nil => intro c st x hx; rw [process_eps_transitions] at hx ⊢; exact Or.inl hx
  | cons t rest ih =>
    intro c st x hx
    rw [process_eps_transitions] at hx ⊢
    by_cases hsym : t.sym = 0
    · rw [if_pos hsym] at hx ⊢
      by_cases hmem : c.contains t.dst = true
      · rw [if_pos hmem] at hx ⊢; exact ih c st x hx
      · rw [if_neg hmem] at hx ⊢
        rcases ih (c ++ [t.dst]) (t.dst :: st) x hx with h | h
        · rcases List.mem_append.mp h with h2 | h2
          · exact Or.inl h2
          · refine Or.inr ?_
            have : x = t.dst := List.mem_singleton.mp h2
            subst this
            exact process_eps_transitions_stack_mono rest _ _ (List.mem_cons_self _ _)
        · exact Or.inr h
    · rw [if_neg hsym] at hx ⊢; exact ih c st x hx

theorem process_eps_transitions_stack_cases :
    ∀ (l : List Transition) (c st : List Nat),
    ∀ x ∈ (process_eps_transitions l c st).2, x ∈ st ∨ x ∈ (process_eps_transitions l c st).1 := by
  intro l
  induction l with
  | nil => intro c st x hx; rw [process_eps_transitions] at hx; exact Or.inl hx
  | cons t rest ih =>
    intro c st x hx
    rw [process_eps_transitions] at hx ⊢
    by_cases hsym : t.sym = 0
    · rw [if_pos hsym] at hx ⊢
      by_cases hmem : c.contains t.dst = true
      · rw [if_pos hmem] at hx ⊢; exact ih c st x hx
      · rw [if_neg hmem] at hx ⊢
        rcases ih (c ++ [t.dst]) (t.dst :: st) x hx with h | h
        · rcases List.mem_cons.mp h with h2 | h2
          · subst h2
            exact Or.inr (process_eps_transitions_closure_mono rest _ _
              (List.mem_append.mpr (Or.inr (List.mem_singleton.mpr rfl))))
          · exact Or.inl h2
        · exact Or.inr h
    · rw [if_neg hsym] at hx ⊢; exact ih c st x hx

theorem epsilon_closure_loop_closure_mono (ts : List Transition) :
    ∀ (fuel : Nat) (c st : List Nat), c ⊆ (epsilon_closure_loop ts fuel c st).1 := by
  intro fuel
  induction fuel with
  | zero => intro c st; rw [epsilon_closure_loop]; exact fun x hx => hx
  | succ fuel ih =>
    intro c st
    match st with
    | [] => rw [epsilon_closure_loop]; exact fun x hx => hx
    | state :: rest =>
      rw [epsilon_closure_loop]
      intro x hx
      exact ih _ _ (process_eps_transitions_closure_mono _ c rest hx)

theorem epsilon_closure_loop_preserves_pred (ts : List Transition) (C : Nat → Prop)
    (hclosed : ∀ t ∈ ts, t.sym = 0 → C t.src → C t.dst) :
    ∀ (fuel : Nat) (c st : List Nat), (∀ x ∈ c, C x) → (∀ x ∈ st, C x) →
    ∀ x ∈ (epsilon_closure_loop ts fuel c st).1, C x := by
  have hproc : ∀ (l : List Transition) (c st : List Nat),
      (∀ t ∈ l, t ∈ ts ∧ t.sym = 0 → C t.src) →
      (∀ t ∈ l, t ∈ ts) →
      (∀ x ∈ c, C x) → (∀ x ∈ st, C x) →
      (∀ x ∈ (process_eps_transitions l c st).1, C x) ∧
      (∀ x ∈ (process_eps_transitions l c st).2, C x) := by
    intro l
    induction l with
    | nil => intro c st _ _ hc hst; rw [process_eps_transitions]; exact ⟨hc, hst⟩
    | cons t rest ih =>
      intro c st hsrc hsub hc hst
      rw [process_eps_transitions]
      by_cases hsym : t.sym = 0
      · rw [if_pos hsym]
        by_cases hmem : c.contains t.dst = true
        · rw [if_pos hmem]
          exact ih c st (fun u hu => hsrc u (List.mem_cons_of_mem _ hu))
            (fun u hu => hsub u (List.mem_cons_of_mem _ hu)) hc hst
        · rw [if_neg hmem]
          have hdst : C t.dst := by
            apply hclosed t (hsub t (List.mem_cons_self _ _)) hsym
            exact hsrc t (List.mem_cons_self _ _) ⟨hsub t (List.mem_cons_self _ _), hsym⟩
          apply ih (c ++ [t.dst]) (t.dst :: st)
            (fun u hu => hsrc u (List.mem_cons_of_mem _ hu))
            (fun u hu => hsub u (List.mem_cons_of_mem _ hu))
          · intro x hx
            rcases List.mem_append.mp hx with h | h
            · exact hc x h
            · rw [List.mem_singleton.mp h]; exact hdst
          · intro x hx
            rcases List.mem_cons.mp hx with h | h
            · rw [h]; exact hdst
            · exact hst x h
      · rw [if_neg hsym]
        exact ih c st (fun u hu => hsrc u (List.mem_cons_of_mem _ hu))
          (fun u hu => hsub u (List.mem_cons_of_mem _ hu)) hc hst
  intro fuel
  induction fuel with
  | zero => intro c st hc _ x hx; rw [epsilon_closure_loop] at hx; exact hc x hx
  | succ fuel ih =>
    intro c st hc hst
    match st with
    | [] =>
      intro x hx
      rw [epsilon_closure_loop] at hx
      exact hc x hx
    | state :: rest =>
      intro x hx
      rw [epsilon_closure_loop] at hx
      have hCstate : C state := hst state (List.mem_cons_self _ _)
      have hsubf : ∀ t ∈ transitions_from_state ts state, t ∈ ts :=
        fun t ht => List.mem_of_mem_filter ht
      have hsrcf : ∀ t ∈ transitions_from_state ts state, t ∈ ts ∧ t.sym = 0 → C t.src := by
        intro t ht _
        have := List.of_mem_filter ht
        have hsrc : t.src = state := by simpa using this
        rw [hsrc]; exact hCstate
      have hp := hproc (transitions_from_state ts state) c rest hsrcf hsubf hc
        (fun u hu => hst u (List.mem_cons_of_mem _ hu))
      exact ih _ _ (hp.1) (hp.2) x hx

theorem epsilon_closure_loop_inv (ts : List Transition) :
    ∀ (fuel : Nat) (c st : List Nat),
    (∀ x ∈ st, x ∈ c) →
    (∀ x ∈ c, x ∈ st ∨ ∀ t ∈ ts, t.src = x → t.sym = 0 → t.dst ∈ c) →
    (∀ x ∈ (epsilon_closure_loop ts fuel c st).2, x ∈ (epsilon_closure_loop ts fuel c st).1) ∧
    (∀ x ∈ (epsilon_closure_loop ts fuel c st).1,
      x ∈ (epsilon_closure_loop ts fuel c st).2 ∨
      ∀ t ∈ ts, t.src = x → t.sym = 0 → t.dst ∈ (epsilon_closure_loop ts fuel c st).1) := by
  intro fuel
  induction fuel with
  | zero =>
    intro c st h1 h2
    rw [epsilon_closure_loop]
    exact ⟨h1, h2⟩
  | succ fuel ih =>
    intro c st h1 h2
    match st with
    | [] =>
      rw [epsilon_closure_loop]
      refine ⟨fun x hx => absurd hx (by simp), ?_⟩
      intro x hx
      rcases h2 x hx with h | h
      · cases h
      · exact Or.inr h
    | state :: rest =>
      rw [epsilon_closure_loop]
      set p := process_eps_transitions (transitions_from_state ts state) c rest with hp
      apply ih p.1 p.2
      · intro x hx
        rcases process_eps_transitions_stack_cases _ c rest x hx with h | h
        · exact process_eps_transitions_closure_mono _ c rest (h1 x (List.mem_cons_of_mem _ h))
        · exact h
      · intro x hx
        rcases process_eps_transitions_closure_cases _ c rest x hx with h | h
        · rcases h2 x h with hst | hcl
          · rcases List.mem_cons.mp hst with heq | hrest
            · subst heq
              refine Or.inr ?_
              intro t ht hsrc hsym
              apply process_eps_transitions_covers _ c rest t _ hsym
              rw [transitions_from_state, List.mem_filter]
              exact ⟨ht, by simp [hsrc]⟩
            · exact Or.inl (process_eps_transitions_stack_mono _ c rest hrest)
          · refine Or.inr ?_
            intro t ht hsrc hsym
            exact process_eps_transitions_closure_mono _ c rest (hcl t ht hsrc hsym)
        · exact Or.inl h

/-- C6. `epsilon_closure(S)` is the least set of states containing `S` and
closed under transitions labelled 0: it contains the seed, it is closed under
epsilon edges, and it is contained in every epsilon-closed superset of the
seed. In particular `epsilon_closure({start})` contains `start`. -/
theorem epsilon_closure_least (n : NFA) (S : List Nat) :
    (∀ s ∈ S, s ∈ n.epsilon_closure S) ∧
    (∀ x ∈ n.epsilon_closure S, ∀ t ∈ n.transitions, t.src = x → t.sym = 0 →
      t.dst ∈ n.epsilon_closure S) ∧
    (∀ C : Nat → Prop, (∀ s ∈ S, C s) →
      (∀ t ∈ n.transitions, t.sym = 0 → C t.src → C t.dst) →
      ∀ x ∈ n.epsilon_closure S, C x) ∧
    n.start ∈ n.epsilon_closure [n.start] := by
  refine ⟨?_, ?_, ?_, ?_⟩
  · intro s hs
    exact epsilon_closure_loop_closure_mono n.transitions _ S S.reverse hs
  · have hinv := epsilon_closure_loop_inv n.transitions
      (S.length + n.transitions.length) S S.reverse
      (fun x hx => List.mem_reverse.mp hx)
      (fun x hx => Or.inl (List.mem_reverse.mpr hx))
    have hdrain := epsilon_closure_loop_drains n.transitions
      (S.length + n.transitions.length) S S.reverse
      (by
        have h1 : eps_new_count n.transitions S ≤ n.transitions.length :=
          List.countP_le_length _
        simp only [List.length_reverse]
        omega)
    intro x hx t ht hsrc hsym
    rcases hinv.2 x hx with h | h
    · rw [hdrain] at h
      cases h
    · exact h t ht hsrc hsym
  · intro C hseed hclosed x hx
    exact epsilon_closure_loop_preserves_pred n.transitions C hclosed _ S S.reverse
      hseed (fun y hy => hseed y (List.mem_reverse.mp hy)) x hx
  · exact epsilon_closure_loop_closure_mono n.transitions _ [n.start] [n.start].reverse
      (List.mem_singleton.mpr rfl)

/-- An NFA whose epsilon-labelled transitions form a cycle (the shape the
repetition loop construction produces when the inner fragment compiles to
epsilon edges, e.g. for the pattern `(a{0})*`): `0 →ε 2`, `2 →ε 3`, `3 →ε 2`
and `2 →ε 1`. -/
def cyclic_epsilon_nfa : NFA :=
  { start := 0, accept := 1, states := [0, 1, 2, 3],
    transitions := [⟨0, 2, 0, -1⟩, ⟨2, 3, 0, -1⟩, ⟨3, 2, 0, -1⟩, ⟨2, 1, 0, -1⟩] }

/-- C6 witness: the theorem applied to a concrete cyclic-epsilon NFA and the
seed `{0}` shows that the start state and its epsilon successors are in the
closure. -/
theorem epsilon_closure_least_witness :
    0 ∈ cyclic_epsilon_nfa.epsilon_closure [0] ∧
    2 ∈ cyclic_epsilon_nfa.epsilon_closure [0] := by
  refine ⟨(epsilon_closure_least cyclic_epsilon_nfa [0]).1 0 (by simp), ?_⟩
  exact (epsilon_closure_least cyclic_epsilon_nfa [0]).2.1 0
    ((epsilon_closure_least cyclic_epsilon_nfa [0]).1 0 (by simp))
    ⟨0, 2, 0, -1⟩ (by simp [cyclic_epsilon_nfa]) rfl rfl

/-! ## The supported AST surface (C9)

`supported_*` mirror the match arms of the builder: they hold exactly when no
arm of the corresponding `add_*` function can raise an error. -/

mutual

/-- A class set the builder accepts: an `Item` whose item is supported. -/
def supported_class_set : ClassSet → Bool
  | .Item item => supported_class_set_item item
  | .BinaryOp => false

/-- A class-set item the builder accepts: ASCII literals and ranges,
non-negated Perl classes, non-negated nested brackets, unions of supported
items. -/
def supported_class_set_item : ClassSetItem → Bool
  | .Literal c => decide (c ≤ 127)
  | .Bracketed neg kind => !neg && supported_class_set kind
  | .Range a b => decide (a ≤ 127) && decide (b ≤ 127)
  | .Perl p => !p.negated
  | .Union items => supported_class_set_items items
  | .OtherItem => false

/-- All items of a union are supported. -/
def supported_class_set_items : List ClassSetItem → Bool
  | [] => true
  | i :: rest => supported_class_set_item i && supported_class_set_items rest

end

mutual

/-- An AST the builder accepts: ASCII literals, dot, non-negated Perl
classes, greedy repetitions over supported inner ASTs, concat/alternation of
supported children, non-negated brackets over supported class sets, and
indexed-capture groups over supported inner ASTs. -/
def supported_ast : Ast → Bool
  | .Literal c => decide (c ≤ 127)
  | .Dot => true
  | .ClassPerl p => !p.negated
  | .Repetition greedy _ inner => greedy && supported_ast inner
  | .Concat asts => supported_ast_list asts
  | .ClassBracketed neg k => !neg && supported_class_set k
  | .Alternation asts => supported_ast_list asts
  | .Group (.CaptureIndex _) inner => supported_ast inner
  | .Group _ _ => false
  | .OtherAst => false

/-- All ASTs of a list are supported. -/
def supported_ast_list : List Ast → Bool
  | [] => true
  | a :: rest => supported_ast a && supported_ast_list rest

end

theorem class_set_ok_bound : ∀ (N : Nat),
    (∀ (kind : ClassSet), sizeOf kind ≤ N → ∀ (negated : Bool),
      (!negated && supported_class_set kind) = true →
      ∀ s e n, ∃ n', add_bracketed negated kind s e n = .ok n') ∧
    (∀ (item : ClassSetItem), sizeOf item ≤ N → supported_class_set_item item = true →
      ∀ s e n, ∃ n', add_class_set_item item s e n = .ok n') ∧
    (∀ (items : List ClassSetItem), sizeOf items ≤ N →
      supported_class_set_items items = true →
      ∀ s e n, ∃ n', add_union items s e n = .ok n') := by
  intro N
  induction N with
  | zero =>
    refine ⟨?_, ?_, ?_⟩
    · intro kind hk
      exfalso
      cases kind <;> simp at hk
    · intro item hk
      exfalso
      cases item <;> simp at hk <;> omega
    · intro items hk
      exfalso
      cases items <;> simp at hk <;> omega
  | succ N ih =>
    obtain ⟨ihb, ihi, ihu⟩ := ih
    refine ⟨?_, ?_, ?_⟩
    · intro kind hk negated h s e n
      rw [Bool.and_eq_true, Bool.not_eq_true'] at h
      match kind with
      | .Item item =>
        have hsz : sizeOf item ≤ N := by simp at hk; omega
        obtain ⟨n', hn'⟩ := ihi item hsz (by simpa [supported_class_set] using h.2) s e n
        exact ⟨n', by rw [add_bracketed, if_neg (by simp [h.1]), hn']⟩
      | .BinaryOp => exact absurd h.2 (by simp [supported_class_set])
    · intro item hk h s e n
      match item with
      | .Literal c =>
        rw [supported_class_set_item, decide_eq_true_eq] at h
        exact ⟨_, by rw [add_class_set_item, add_literal, get_ascii_char, if_pos h]⟩
      | .Bracketed neg kind =>
        have hsz : sizeOf kind ≤ N := by simp at hk; omega
        obtain ⟨n', hn'⟩ := ihb kind hsz neg (by simpa [supported_class_set_item] using h) s e n
        exact ⟨n', by rw [add_class_set_item, hn']⟩
      | .Range a b =>
        rw [supported_class_set_item, Bool.and_eq_true, decide_eq_true_eq,
          decide_eq_true_eq] at h
        exact ⟨_, by rw [add_class_set_item, add_range, get_ascii_char, if_pos h.1,
          get_ascii_char, if_pos h.2]⟩
      | .Perl ⟨pneg, pkind⟩ =>
        rw [supported_class_set_item] at h
        have hf : pneg = false := by simpa using h
        subst hf
        match pkind with
        | .Digit => exact ⟨_, by rw [add_class_set_item]; rfl⟩
        | .Space => exact ⟨_, by rw [add_class_set_item]; rfl⟩
        | .Word => exact ⟨_, by rw [add_class_set_item]; rfl⟩
      | .Union items =>
        have hsz : sizeOf items ≤ N := by simp at hk; omega
        obtain ⟨n', hn'⟩ := ihu items hsz (by simpa [supported_class_set_item] using h) s e n
        exact ⟨n', by rw [add_class_set_item, hn']⟩
      | .OtherItem => exact absurd h (by simp [supported_class_set_item])
    · intro items hk h s e n
      match items with
      | [] => exact ⟨n, by rw [add_union]⟩
      | [item] =>
        rw [supported_class_set_items, Bool.and_eq_true] at h
        have hsz : sizeOf item ≤ N := by simp at hk; omega
        obtain ⟨n', hn'⟩ := ihi item hsz h.1 s e n
        exact ⟨n', by rw [add_union, hn']⟩
      | item :: next :: rest =>
        rw [supported_class_set_items, Bool.and_eq_true] at h
        have hszi : sizeOf item ≤ N := by simp at hk; omega
        have hszr : sizeOf (next :: rest) ≤ N := by simp at hk ⊢; omega
        obtain ⟨n2, h2⟩ := ihi item hszi h.1 s n.new_state.1 n.new_state.2
        obtain ⟨n', hn'⟩ := ihu (next :: rest) hszr h.2 n.new_state.1 e n2
        refine ⟨n', ?_⟩
        rw [add_union, h2]
        exact hn'
        simp

theorem add_chain_ok_of (inner : Ast)
    (hok : ∀ s e n, ∃ n2, add_ast_to_nfa inner s e n = .ok n2) :
    ∀ (k cur : Nat) (n : NFA), ∃ q, add_chain inner k cur n = .ok q := by
  intro k
  induction k with
  | zero => exact fun cur n => ⟨(cur, n), by rw [add_chain]⟩
  | succ k ih =>
    intro cur n
    obtain ⟨n2, h2⟩ := hok cur n.new_state.1 n.new_state.2
    obtain ⟨q, hq⟩ := ih n.new_state.1 n2
    refine ⟨q, ?_⟩
    rw [add_chain, h2]
    exact hq

theorem add_chain_eps_ok_of (inner : Ast)
    (hok : ∀ s e n, ∃ n2, add_ast_to_nfa inner s e n = .ok n2) :
    ∀ (k cur e : Nat) (n : NFA), ∃ n', add_chain_eps inner k cur e n = .ok n' := by
  intro k
  induction k with
  | zero => exact fun cur e n => ⟨n, by rw [add_chain_eps]⟩
  | succ k ih =>
    intro cur e n
    obtain ⟨n2, h2⟩ := hok cur n.new_state.1 n.new_state.2
    obtain ⟨n', hn'⟩ := ih n.new_state.1 e (n2.add_epsilon_transition n.new_state.1 e)
    refine ⟨n', ?_⟩
    rw [add_chain_eps, h2]
    exact hn'

theorem add_repetition_ok_of (kind : RepetitionKind) (inner : Ast)
    (hok : ∀ s e n, ∃ n2, add_ast_to_nfa inner s e n = .ok n2) :
    ∀ s e n, ∃ n', add_repetition true kind inner s e n = .ok n' := by
  intro s e n
  simp only [add_repetition, Bool.true_eq_false, if_false]
  have hafter : ∃ n2,
      (if (get_repetition_range kind).1 = 0 then
        Except.ok (n.new_state.2.add_epsilon_transition s n.new_state.1)
      else
        match add_chain inner ((get_repetition_range kind).1 - 1) s n.new_state.2 with
        | .error err => .error err
        | .ok q => add_ast_to_nfa inner q.1 n.new_state.1 q.2) = Except.ok n2 := by
    by_cases h0 : (get_repetition_range kind).1 = 0
    · exact ⟨_, by rw [if_pos h0]⟩
    · rw [if_neg h0]
      obtain ⟨q, hq⟩ := add_chain_ok_of inner hok ((get_repetition_range kind).1 - 1) s
        n.new_state.2
      obtain ⟨n2, h2⟩ := hok q.1 n.new_state.1 q.2
      refine ⟨n2, ?_⟩
      rw [hq]
      exact h2
  obtain ⟨n2, h2⟩ := hafter
  rw [h2]
  rcases hm : (get_repetition_range kind).2 with _ | mx
  · simp only [hm]
    obtain ⟨n', hn'⟩ := hok n.new_state.1 n.new_state.1
      (n2.add_epsilon_transition n.new_state.1 e)
    exact ⟨n', hn'⟩
  · simp only [hm]
    by_cases he : (get_repetition_range kind).1 = mx
    · exact ⟨_, by rw [if_pos he]⟩
    · rw [if_neg he]
      exact add_chain_eps_ok_of inner hok (mx - (get_repetition_range kind).1) n.new_state.1 e
        (n2.add_epsilon_transition n.new_state.1 e)

theorem ast_ok_bound : ∀ (N : Nat),
    (∀ (ast : Ast), sizeOf ast ≤ N → supported_ast ast = true →
      ∀ s e n, ∃ n', add_ast_to_nfa ast s e n = .ok n') ∧
    (∀ (asts : List Ast), sizeOf asts ≤ N → supported_ast_list asts = true →
      ∀ s e n, ∃ n', add_concat asts s e n = .ok n') ∧
    (∀ (asts : List Ast), sizeOf asts ≤ N → supported_ast_list asts = true →
      ∀ s e n, ∃ n', add_alternation asts s e n = .ok n') := by
  intro N
  induction N with
  | zero =>
    refine ⟨?_, ?_, ?_⟩
    · intro ast hk
      exfalso
      cases ast <;> simp at hk <;> omega
    · intro asts hk
      exfalso
      cases asts <;> simp at hk <;> omega
    · intro asts hk
      exfalso
      cases asts <;> simp at hk <;> omega
  | succ N ih =>
    obtain ⟨iha, ihc, ihl⟩ := ih
    have hself : ∀ (ast : Ast), sizeOf ast ≤ N + 1 → supported_ast ast = true →
        ∀ s e n, ∃ n', add_ast_to_nfa ast s e n = .ok n' := by
      intro ast hk h s e n
      match ast with
      | .Literal c =>
        rw [supported_ast, decide_eq_true_eq] at h
        exact ⟨_, by rw [add_ast_to_nfa, add_literal, get_ascii_char, if_pos h]⟩
      | .Dot => exact ⟨_, by rw [add_ast_to_nfa, add_dot]⟩
      | .ClassPerl ⟨pneg, pkind⟩ =>
        rw [supported_ast] at h
        have hf : pneg = false := by simpa using h
        subst hf
        match pkind with
        | .Digit => exact ⟨_, by rw [add_ast_to_nfa]; rfl⟩
        | .Space => exact ⟨_, by rw [add_ast_to_nfa]; rfl⟩
        | .Word => exact ⟨_, by rw [add_ast_to_nfa]; rfl⟩
      | .Repetition greedy kind inner =>
        rw [supported_ast, Bool.and_eq_true] at h
        have hg : greedy = true := h.1
        subst hg
        have hsz : sizeOf inner ≤ N := by simp at hk; omega
        obtain ⟨n', hn'⟩ := add_repetition_ok_of kind inner (iha inner hsz h.2) s e n
        exact ⟨n', by rw [add_ast_to_nfa, hn']⟩
      | .Concat asts =>
        have hsz : sizeOf asts ≤ N := by simp at hk; omega
        obtain ⟨n', hn'⟩ := ihc asts hsz (by simpa [supported_ast] using h) s e n
        exact ⟨n', by rw [add_ast_to_nfa, hn']⟩
      | .ClassBracketed neg k =>
        have hsz : sizeOf k ≤ sizeOf k := le_refl _
        obtain ⟨n', hn'⟩ := (class_set_ok_bound (sizeOf k)).1 k hsz neg
          (by simpa [supported_ast] using h) s e n
        exact ⟨n', by rw [add_ast_to_nfa, hn']⟩
      | .Alternation asts =>
        have hsz : sizeOf asts ≤ N := by simp at hk; omega
        obtain ⟨n', hn'⟩ := ihl asts hsz (by simpa [supported_ast] using h) s e n
        exact ⟨n', by rw [add_ast_to_nfa, hn']⟩
      | .Group (.CaptureIndex i) inner =>
        have hsz : sizeOf inner ≤ N := by simp at hk; omega
        obtain ⟨n', hn'⟩ := iha inner hsz (by simpa [supported_ast] using h) s e n
        exact ⟨n', by rw [add_ast_to_nfa, add_group, hn']⟩
      | .Group (.CaptureName name) inner => exact absurd h (by simp [supported_ast])
      | .Group .NonCapturing inner => exact absurd h (by simp [supported_ast])
      | .OtherAst => exact absurd h (by simp [supported_ast])
    refine ⟨hself, ?_, ?_⟩
    · intro asts hk h s e n
      match asts with
      | [] => exact ⟨n, by rw [add_concat]⟩
      | [a] =>
        rw [supported_ast_list, Bool.and_eq_true] at h
        have hsz : sizeOf a ≤ N + 1 := by simp at hk; omega
        obtain ⟨n', hn'⟩ := hself a hsz h.1 s e n
        exact ⟨n', by rw [add_concat, hn']⟩
      | a :: next :: rest =>
        rw [supported_ast_list, Bool.and_eq_true] at h
        have hsza : sizeOf a ≤ N + 1 := by simp at hk; omega
        have hszr : sizeOf (next :: rest) ≤ N := by simp at hk ⊢; omega
        obtain ⟨n2, h2⟩ := hself a hsza h.1 s n.new_state.1 n.new_state.2
        obtain ⟨n', hn'⟩ := ihc (next :: rest) hszr h.2 n.new_state.1 e n2
        refine ⟨n', ?_⟩
        rw [add_concat, h2]
        exact hn'
        simp
    · intro asts hk h s e n
      match asts with
      | [] => exact ⟨n, by rw [add_alternation]⟩
      | a :: rest =>
        rw [supported_ast_list, Bool.and_eq_true] at h
        have hsza : sizeOf a ≤ N + 1 := by simp at hk; omega
        have hszr : sizeOf rest ≤ N := by simp at hk ⊢; omega
        obtain ⟨n5, h5⟩ := hself a hsza h.1 n.new_state.1 n.new_state.2.new_state.1
          ((n.new_state.2.new_state.2.add_epsilon_transition s
            n.new_state.1).add_epsilon_transition n.new_state.2.new_state.1 e)
        obtain ⟨n', hn'⟩ := ihl rest hszr h.2 s e n5
        refine ⟨n', ?_⟩
        rw [add_alternation, h5]
        exact hn'

theorem add_ast_to_nfa_ok (ast : Ast) (h : supported_ast ast = true) :
    ∀ s e n, ∃ n', add_ast_to_nfa ast s e n = .ok n' :=
  (ast_ok_bound (sizeOf ast)).1 ast (le_refl _) h

/-- C9. The builder hard-errors exactly on the unsupported constructs: a
negated Perl class or negated bracket class yields `NegationNotSupported`, a
non-greedy repetition yields `NonGreedyRepetitionNotSupported`, a group whose
kind is not an indexed capture yields `UnsupportedGroupKindType`, a non-ASCII
character literal yields `NoneASCIICharacters`; and on the supported surface
(no negation, greedy repetitions, indexed-capture groups, ASCII characters)
compilation always succeeds, leaving no error. -/
theorem add_ast_to_nfa_errors :
    (∀ (p : ClassPerl) (s e : Nat) (n : NFA), p.negated = true →
      add_ast_to_nfa (.ClassPerl p) s e n =
        .error (.NegationNotSupported "Negation in perl not yet supported.")) ∧
    (∀ (kset : ClassSet) (s e : Nat) (n : NFA),
      add_ast_to_nfa (.ClassBracketed true kset) s e n =
        .error (.NegationNotSupported "Negation in bracket not yet supported")) ∧
    (∀ (kind : RepetitionKind) (inner : Ast) (s e : Nat) (n : NFA),
      add_ast_to_nfa (.Repetition false kind inner) s e n =
        .error .NonGreedyRepetitionNotSupported) ∧
    (∀ (gk : GroupKind) (inner : Ast) (s e : Nat) (n : NFA), (∀ i, gk ≠ .CaptureIndex i) →
      add_ast_to_nfa (.Group gk inner) s e n = .error .UnsupportedGroupKindType) ∧
    (∀ (c s e : Nat) (n : NFA), 127 < c →
      add_ast_to_nfa (.Literal c) s e n = .error .NoneASCIICharacters) ∧
    (∀ (ast : Ast) (s e : Nat) (n : NFA), supported_ast ast = true →
      ∃ n', add_ast_to_nfa ast s e n = .ok n') := by
  refine ⟨?_, ?_, ?_, ?_, ?_, ?_⟩
  · intro p s e n hneg
    rw [add_ast_to_nfa, add_perl, if_pos (by simp [hneg])]
  · intro kset s e n
    rw [add_ast_to_nfa, add_bracketed.eq_def, if_pos rfl]
  · intro kind inner s e n
    rw [add_ast_to_nfa, add_repetition, if_pos rfl]
  · intro gk inner s e n hgk
    match gk with
    | .CaptureIndex i => exact absurd rfl (hgk i)
    | .CaptureName name => simp [add_ast_to_nfa, add_group]
    | .NonCapturing => simp [add_ast_to_nfa, add_group]
  · intro c s e n hc
    rw [add_ast_to_nfa, add_literal, get_ascii_char, if_neg (by omega)]
  · intro ast s e n h
    exact add_ast_to_nfa_ok ast h s e n

/-- C9 witness: the theorem applied to one concrete AST per error kind, and to
one supported AST for the success direction. -/
theorem add_ast_to_nfa_errors_witness :
    add_ast_to_nfa (.ClassPerl ⟨true, .Digit⟩) 0 1 NFA.new =
      .error (.NegationNotSupported "Negation in perl not yet supported.") ∧
    add_ast_to_nfa (.ClassBracketed true .BinaryOp) 0 1 NFA.new =
      .error (.NegationNotSupported "Negation in bracket not yet supported") ∧
    add_ast_to_nfa (.Repetition false .ZeroOrMore .Dot) 0 1 NFA.new =
      .error .NonGreedyRepetitionNotSupported ∧
    add_ast_to_nfa (.Group .NonCapturing .Dot) 0 1 NFA.new =
      .error .UnsupportedGroupKindType ∧
    add_ast_to_nfa (.Literal 200) 0 1 NFA.new = .error .NoneASCIICharacters ∧
    ∃ n', add_ast_to_nfa (.Literal 97) 0 1 NFA.new = .ok n' :=
  ⟨add_ast_to_nfa_errors.1 ⟨true, .Digit⟩ 0 1 NFA.new rfl,
   add_ast_to_nfa_errors.2.1 .BinaryOp 0 1 NFA.new,
   add_ast_to_nfa_errors.2.2.1 .ZeroOrMore .Dot 0 1 NFA.new,
   add_ast_to_nfa_errors.2.2.2.1 .NonCapturing .Dot 0 1 NFA.new
     (by intro i h; cases h),
   add_ast_to_nfa_errors.2.2.2.2.1 200 0 1 NFA.new (by omega),
   add_ast_to_nfa_errors.2.2.2.2.2 (.Literal 97) 0 1 NFA.new (by decide)⟩

/-! ## Schema loading errors (C10) -/

theorem set_delimiters_nonascii :
    ∀ (l : List Char) (d : List Bool), (∃ ch ∈ l, 127 < ch.toNat) →
    set_delimiters l d = .error .NoneASCIICharacters := by
  intro l
  induction l with
  | nil =>
    intro d h
    obtain ⟨ch, hmem, _⟩ := h
    cases hmem
  | cons c rest ih =>
    intro d h
    rw [set_delimiters]
    by_cases hc : 127 < c.toNat
    · rw [if_pos hc]
    · rw [if_neg hc]
      apply ih
      obtain ⟨ch, hmem, hval⟩ := h
      rcases List.mem_cons.mp hmem with heq | hmem2
      · subst heq; omega
      · exact ⟨ch, hmem2, hval⟩

theorem set_delimiters_length :
    ∀ (l : List Char) (d d' : List Bool), set_delimiters l d = .ok d' →
    d'.length = d.length := by
  intro l
  induction l with
  | nil =>
    intro d d' h
    rw [set_delimiters] at h
    cases h
    rfl
  | cons c rest ih =>
    intro d d' h
    rw [set_delimiters] at h
    by_cases hc : 127 < c.toNat
    · rw [if_pos hc] at h; cases h
    · rw [if_neg hc] at h
      have := ih (d.set c.toNat true) d' h
      simpa using this

theorem getD_set_true :
    ∀ (l : List Bool) (i : Nat), i < l.length → (l.set i true).getD i false = true := by
  intro l
  induction l with
  | nil => intro i h; simp at h
  | cons b rest ih =>
    intro i h
    cases i with
    | zero => rfl
    | succ j => exact ih j (by simp at h; omega)

/-- C10. Schema construction fails with `MissingSchemaKey` for an absent
`timestamp`/`variables`/`delimiters` key, with `InvalidSchema` when a present
key (or one of its elements) has the wrong shape, and with
`NoneASCIICharacters` when the delimiter string contains a non-ASCII
character; and on success `'\n'` is always a delimiter regardless of the
schema content. The keys are processed in the order timestamp, variables,
delimiters, so each later condition assumes the earlier stages succeeded. -/
theorem load_from_kv_pairs_errors :
    (∀ (parse : String → Except Error Ast) (kv : List (String × Value)),
      kv.lookup "timestamp" = none →
      load_from_kv_pairs parse kv = .error (.MissingSchemaKey "timestamp")) ∧
    (∀ (parse : String → Except Error Ast) (kv : List (String × Value)) (tval : Value),
      kv.lookup "timestamp" = some tval → (∀ l, tval ≠ .Sequence l) →
      load_from_kv_pairs parse kv = .error .InvalidSchema) ∧
    (∀ (parse : String → Except Error Ast) (v : Value) (rest : List Value),
      (∀ s, v ≠ .Str s) →
      load_timestamps parse (v :: rest) = .error .InvalidSchema) ∧
    (∀ (parse : String → Except Error Ast) (kv : List (String × Value)) (seq : List Value)
      (ts : List TimestampSchema),
      kv.lookup "timestamp" = some (.Sequence seq) → load_timestamps parse seq = .ok ts →
      kv.lookup "variables" = none →
      load_from_kv_pairs parse kv = .error (.MissingSchemaKey "variables")) ∧
    (∀ (parse : String → Except Error Ast) (kv : List (String × Value)) (seq : List Value)
      (ts : List TimestampSchema) (vval : Value),
      kv.lookup "timestamp" = some (.Sequence seq) → load_timestamps parse seq = .ok ts →
      kv.lookup "variables" = some vval → (∀ m, vval ≠ .Mapping m) →
      load_from_kv_pairs parse kv = .error .InvalidSchema) ∧
    (∀ (parse : String → Except Error Ast) (k v : Value) (rest : List (Value × Value)),
      (∀ a b, ¬(k = .Str a ∧ v = .Str b)) →
      load_vars parse ((k, v) :: rest) = .error .InvalidSchema) ∧
    (∀ (parse : String → Except Error Ast) (kv : List (String × Value)) (seq : List Value)
      (ts : List TimestampSchema) (m : List (Value × Value)) (vs : List VarSchema),
      kv.lookup "timestamp" = some (.Sequence seq) → load_timestamps parse seq = .ok ts →
      kv.lookup "variables" = some (.Mapping m) → load_vars parse m = .ok vs →
      kv.lookup "delimiters" = none →
      load_from_kv_pairs parse kv = .error (.MissingSchemaKey "delimiters")) ∧
    (∀ (parse : String → Except Error Ast) (kv : List (String × Value)) (seq : List Value)
      (ts : List TimestampSchema) (m : List (Value × Value)) (vs : List VarSchema)
      (dval : Value),
      kv.lookup "timestamp" = some (.Sequence seq) → load_timestamps parse seq = .ok ts →
      kv.lookup "variables" = some (.Mapping m) → load_vars parse m = .ok vs →
      kv.lookup "delimiters" = some dval → (∀ s, dval ≠ .Str s) →
      load_from_kv_pairs parse kv = .error .InvalidSchema) ∧
    (∀ (parse : String → Except Error Ast) (kv : List (String × Value)) (seq : List Value)
      (ts : List TimestampSchema) (m : List (Value × Value)) (vs : List VarSchema)
      (dstr : String),
      kv.lookup "timestamp" = some (.Sequence seq) → load_timestamps parse seq = .ok ts →
      kv.lookup "variables" = some (.Mapping m) → load_vars parse m = .ok vs →
      kv.lookup "delimiters" = some (.Str dstr) → (∃ ch ∈ dstr.data, 127 < ch.toNat) →
      load_from_kv_pairs parse kv = .error .NoneASCIICharacters) ∧
    (∀ (parse : String → Except Error Ast) (kv : List (String × Value)) (cfg : SchemaConfig),
      load_from_kv_pairs parse kv = .ok cfg → cfg.has_delimiter 10 = true) := by
  refine ⟨?_, ?_, ?_, ?_, ?_, ?_, ?_, ?_, ?_, ?_⟩
  · intro parse kv h
    rw [load_from_kv_pairs, get_key_value, h]
  · intro parse kv tval h hshape
    rw [load_from_kv_pairs, get_key_value, h]
    cases tval with
    | Str s => rfl
    | Sequence l => exact absurd rfl (hshape l)
    | Mapping m => rfl
    | OtherVal => rfl
  · intro parse v rest hshape
    rw [load_timestamps.eq_def]
    cases v with
    | Str s => exact absurd rfl (hshape s)
    | Sequence l => rfl
    | Mapping m => rfl
    | OtherVal => rfl
  · intro parse kv seq ts h1 h2 h3
    rw [load_from_kv_pairs, get_key_value, h1]
    simp only [h2, get_key_value, h3]
  · intro parse kv seq ts vval h1 h2 h3 hshape
    rw [load_from_kv_pairs, get_key_value, h1]
    simp only [h2, get_key_value, h3]
  · intro parse k v rest hshape
    rw [load_vars.eq_def]
    cases k with
    | Str a =>
      cases v with
      | Str b => exact absurd ⟨rfl, rfl⟩ (hshape a b)
      | Sequence l => rfl
      | Mapping m => rfl
      | OtherVal => rfl
    | Sequence l => rfl
    | Mapping m => rfl
    | OtherVal => rfl
  · intro parse kv seq ts m vs h1 h2 h3 h4 h5
    rw [load_from_kv_pairs, get_key_value, h1]
    simp only [h2, get_key_value, h3, h4, h5]
  · intro parse kv seq ts m vs dval h1 h2 h3 h4 h5 hshape
    rw [load_from_kv_pairs, get_key_value, h1]
    simp only [h2, get_key_value, h3, h4, h5]
  · intro parse kv seq ts m vs dstr h1 h2 h3 h4 h5 hch
    rw [load_from_kv_pairs, get_key_value, h1]
    simp only [h2, get_key_value, h3, h4, h5,
      set_delimiters_nonascii dstr.data (List.replicate 128 false) hch]
  · intro parse kv cfg h
    rw [load_from_kv_pairs] at h
    set d0 : List Bool := List.replicate 128 false with hd0
    rcases h1 : get_key_value kv "timestamp" with e1 | tval
    · simp [h1] at h
    · simp only [h1] at h
      cases tval with
      | Str s => simp at h
      | Mapping m => simp at h
      | OtherVal => simp at h
      | Sequence seq =>
        rcases h2 : load_timestamps parse seq with e2 | ts
        · simp [h2] at h
        · simp only [h2] at h
          rcases h3 : get_key_value kv "variables" with e3 | vval
          · simp [h3] at h
          · simp only [h3] at h
            cases vval with
            | Str s => simp at h
            | Sequence l => simp at h
            | OtherVal => simp at h
            | Mapping m =>
              rcases h4 : load_vars parse m with e4 | vs
              · simp [h4] at h
              · simp only [h4] at h
                rcases h5 : get_key_value kv "delimiters" with e5 | dval
                · simp [h5] at h
                · simp only [h5] at h
                  cases dval with
                  | Sequence l => simp at h
                  | Mapping mm => simp at h
                  | OtherVal => simp at h
                  | Str dstr =>
                    rcases h6 : set_delimiters dstr.data d0 with e6 | d
                    · simp [h6] at h
                    · simp only [h6] at h
                      have hcfg : cfg = ⟨ts, vs, d.set 10 true⟩ := by
                        cases h
                        rfl
                      subst hcfg
                      rw [SchemaConfig.has_delimiter, if_neg (by omega)]
                      apply getD_set_true
                      have hlen := set_delimiters_length dstr.data d0 d h6
                      rw [hd0] at hlen
                      simp at hlen
                      omega

/-- A regex parser stub for the C10 witness (every theorem about the schema
loader holds for every parser, so any concrete one will do). -/
def parse_stub : String → Except Error Ast := fun _ => .ok .Dot

/-- C10 witness: the theorem applied at concrete schema documents, one per
failure condition, plus a successful document whose configuration marks
`'\n'` as a delimiter. -/
theorem load_from_kv_pairs_errors_witness :
    load_from_kv_pairs parse_stub [] = .error (.MissingSchemaKey "timestamp") ∧
    load_from_kv_pairs parse_stub [("timestamp", .OtherVal)] = .error .InvalidSchema ∧
    load_timestamps parse_stub [.OtherVal] = .error .InvalidSchema ∧
    load_from_kv_pairs parse_stub [("timestamp", .Sequence [])] =
      .error (.MissingSchemaKey "variables") ∧
    load_from_kv_pairs parse_stub [("timestamp", .Sequence []), ("variables", .OtherVal)] =
      .error .InvalidSchema ∧
    load_vars parse_stub [(.OtherVal, .OtherVal)] = .error .InvalidSchema ∧
    load_from_kv_pairs parse_stub [("timestamp", .Sequence []), ("variables", .Mapping [])] =
      .error (.MissingSchemaKey "delimiters") ∧
    load_from_kv_pairs parse_stub
      [("timestamp", .Sequence []), ("variables", .Mapping []), ("delimiters", .OtherVal)] =
      .error .InvalidSchema ∧
    load_from_kv_pairs parse_stub
      [("timestamp", .Sequence []), ("variables", .Mapping []), ("delimiters", .Str "é")] =
      .error .NoneASCIICharacters ∧
    (∃ cfg, load_from_kv_pairs parse_stub
      [("timestamp", .Sequence []), ("variables", .Mapping []), ("delimiters", .Str " ")] =
        .ok cfg ∧ cfg.has_delimiter 10 = true) := by
  refine ⟨?_, ?_, ?_, ?_, ?_, ?_, ?_, ?_, ?_, ?_⟩
  · exact load_from_kv_pairs_errors.1 parse_stub [] rfl
  · exact load_from_kv_pairs_errors.2.1 parse_stub [("timestamp", .OtherVal)] .OtherVal rfl
      (by intro l hl; cases hl)
  · exact load_from_kv_pairs_errors.2.2.1 parse_stub .OtherVal []
      (by intro s hs; cases hs)
  · exact load_from_kv_pairs_errors.2.2.2.1 parse_stub [("timestamp", .Sequence [])] [] []
      rfl rfl rfl
  · exact load_from_kv_pairs_errors.2.2.2.2.1 parse_stub
      [("timestamp", .Sequence []), ("variables", .OtherVal)] [] [] .OtherVal rfl rfl rfl
      (by intro mm hm; cases hm)
  · exact load_from_kv_pairs_errors.2.2.2.2.2.1 parse_stub .OtherVal .OtherVal []
      (by intro a b hab; cases hab.1)
  · exact load_from_kv_pairs_errors.2.2.2.2.2.2.1 parse_stub
      [("timestamp", .Sequence []), ("variables", .Mapping [])] [] [] [] [] rfl rfl rfl rfl rfl
  · exact load_from_kv_pairs_errors.2.2.2.2.2.2.2.1 parse_stub
      [("timestamp", .Sequence []), ("variables", .Mapping []), ("delimiters", .OtherVal)]
      [] [] [] [] .OtherVal rfl rfl rfl rfl rfl (by intro s hs; cases hs)
  · exact load_from_kv_pairs_errors.2.2.2.2.2.2.2.2.1 parse_stub
      [("timestamp", .Sequence []), ("variables", .Mapping []), ("delimiters", .Str "é")]
      [] [] [] [] "é" rfl rfl rfl rfl rfl ⟨'é', by decide, by decide⟩
  · exact ⟨_, rfl, load_from_kv_pairs_errors.2.2.2.2.2.2.2.2.2 parse_stub
      [("timestamp", .Sequence []), ("variables", .Mapping []), ("delimiters", .Str " ")]
      _ rfl⟩

/-! ## Provenance-marked mirror of the NFA builder (C5)

The claim that a label is 0 exactly for epsilon transitions speaks about how
an edge was *inserted* (`add_epsilon_transition` versus the labelled
helpers), which the `Transition` record itself does not remember. The
definitions below are a field-for-field mirror of the builder above over
transitions carrying one extra boolean `eps`, set exactly by the mirror of
`add_epsilon_transition`; the erasure theorems prove that dropping the flag
recovers `add_ast_to_nfa` itself, so facts about the marked build transfer to
the real one. -/

/-- A `Transition` together with its provenance flag. -/
structure MarkedTransition where
  src : Nat
  dst : Nat
  sym : Nat
  tag : Int
  eps : Bool
deriving DecidableEq

/-- Drop the provenance flag. -/
def MarkedTransition.erase (t : MarkedTransition) : Transition := ⟨t.src, t.dst, t.sym, t.tag⟩

/-- The NFA over marked transitions. -/
structure MarkedNFA where
  start : Nat
  accept : Nat
  states : List Nat
  transitions : List MarkedTransition
deriving DecidableEq

/-- Drop all provenance flags. -/
def MarkedNFA.erase (n : MarkedNFA) : NFA :=
  ⟨n.start, n.accept, n.states, n.transitions.map MarkedTransition.erase⟩

/-- Mirror of `NFA::new()`. -/
def MarkedNFA.new : MarkedNFA := { start := 0, accept := 1, states := [0, 1], transitions := [] }

/-- Mirror of `NFA::new_state`. -/
def MarkedNFA.new_state (n : MarkedNFA) : Nat × MarkedNFA :=
  (n.states.length, { n with states := n.states ++ [n.states.length] })

/-- Mirror of `NFA::add_transition`; the flag records that the edge was not
added through `add_epsilon_transition`. -/
def MarkedNFA.add_transition (n : MarkedNFA) (f t : Nat) (onehot : Nat) : MarkedNFA :=
  { n with transitions := n.transitions ++ [⟨f, t, onehot, -1, false⟩] }

/-- Mirror of `NFA::add_transition_from_range`. -/
def MarkedNFA.add_transition_from_range (n : MarkedNFA) (f t : Nat)
    (range : Option (Nat × Nat)) : MarkedNFA :=
  n.add_transition f t (convert_char_range_to_symbol_onehot_encoding range)

/-- Mirror of `NFA::add_epsilon_transition`; the flag records the epsilon
provenance. -/
def MarkedNFA.add_epsilon_transition (n : MarkedNFA) (f t : Nat) : MarkedNFA :=
  { n with transitions := n.transitions ++ [⟨f, t, EPSILON_TRANSITION, -1, true⟩] }

/-- Mirror of `NFA::add_literal`. -/
def add_literal_m (c : Nat) (s e : Nat) (n : MarkedNFA) : Except Error MarkedNFA :=
  match get_ascii_char c with
  | .ok c2 => .ok (n.add_transition_from_range s e (some (c2, c2)))
  | .error err => .error err

/-- Mirror of `NFA::add_dot`. -/
def add_dot_m (s e : Nat) (n : MarkedNFA) : Except Error MarkedNFA :=
  .ok (n.add_transition s e DOT_TRANSITION)

/-- Mirror of `NFA::add_perl`. -/
def add_perl_m (p : ClassPerl) (s e : Nat) (n : MarkedNFA) : Except Error MarkedNFA :=
  if p.negated then .error (.NegationNotSupported "Negation in perl not yet supported.")
  else
    match p.kind with
    | .Digit => .ok (n.add_transition s e DIGIT_TRANSITION)
    | .Space => .ok (n.add_transition s e SPACE_TRANSITION)
    | .Word => .ok (n.add_transition s e WORD_TRANSITION)

/-- Mirror of `NFA::add_range`. -/
def add_range_m (a b : Nat) (s e : Nat) (n : MarkedNFA) : Except Error MarkedNFA :=
  match get_ascii_char a with
  | .error err => .error err
  | .ok a2 =>
    match get_ascii_char b with
    | .error err => .error err
    | .ok b2 => .ok (n.add_transition_from_range s e (some (a2, b2)))

mutual

/-- Mirror of `NFA::add_bracketed`. -/
def add_bracketed_m (negated : Bool) (kind : ClassSet) (s e : Nat) (n : MarkedNFA) :
    Except Error MarkedNFA :=
  if negated then .error (.NegationNotSupported "Negation in bracket not yet supported")
  else
    match kind with
    | .Item item => add_class_set_item_m item s e n
    | .BinaryOp => .error .UnsupportedAstBracketedKind

/-- Mirror of `NFA::add_class_set_item`. -/
def add_class_set_item_m (item : ClassSetItem) (s e : Nat) (n : MarkedNFA) :
    Except Error MarkedNFA :=
  match item with
  | .Literal c => add_literal_m c s e n
  | .Bracketed neg kind => add_bracketed_m neg kind s e n
  | .Range a b => add_range_m a b s e n
  | .Perl p => add_perl_m p s e n
  | .Union items => add_union_m items s e n
  | .OtherItem => .error .UnsupportedClassSetType

/-- Mirror of `NFA::add_union`. -/
def add_union_m (items : List ClassSetItem) (s e : Nat) (n : MarkedNFA) :
    Except Error MarkedNFA :=
  match items with
  | [] => .ok n
  | [item] => add_class_set_item_m item s e n
  | item :: rest =>
    let p := n.new_state
    match add_class_set_item_m item s p.1 p.2 with
    | .ok n2 => add_union_m rest p.1 e n2
    | .error err => .error err

end

mutual

/-- Mirror of `NFA::add_ast_to_nfa`. -/
def add_ast_to_nfa_m (ast : Ast) (s e : Nat) (n : MarkedNFA) : Except Error MarkedNFA :=
  match ast with
  | .Literal c => add_literal_m c s e n
  | .Dot => add_dot_m s e n
  | .ClassPerl p => add_perl_m p s e n
  | .Repetition greedy kind inner => add_repetition_m greedy kind inner s e n
  | .Concat asts => add_concat_m asts s e n
  | .ClassBracketed neg k => add_bracketed_m neg k s e n
  | .Alternation asts => add_alternation_m asts s e n
  | .Group gk inner => add_group_m gk inner s e n
  | .OtherAst => .error (.UnsupportedAstNodeType "Ast Type not supported")
termination_by (sizeOf ast, 0, 0)

/-- Mirror of `NFA::add_group`. -/
def add_group_m (gk : GroupKind) (inner : Ast) (s e : Nat) (n : MarkedNFA) :
    Except Error MarkedNFA :=
  match gk with
  | .CaptureIndex _ => add_ast_to_nfa_m inner s e n
  | _ => .error .UnsupportedGroupKindType
termination_by (sizeOf inner, 1, 0)

/-- Mirror of `NFA::add_repetition`. -/
def add_repetition_m (greedy : Bool) (kind : RepetitionKind) (inner : Ast) (s e : Nat)
    (n : MarkedNFA) : Except Error MarkedNFA :=
  if greedy = false then .error .NonGreedyRepetitionNotSupported
  else
    let mm := get_repetition_range kind
    let p := n.new_state
    let afterMin : Except Error MarkedNFA :=
      if mm.1 = 0 then .ok (p.2.add_epsilon_transition s p.1)
      else
        match add_chain_m inner (mm.1 - 1) s p.2 with
        | .error err => .error err
        | .ok q => add_ast_to_nfa_m inner q.1 p.1 q.2
    match afterMin with
    | .error err => .error err
    | .ok n2 =>
      let n3 := n2.add_epsilon_transition p.1 e
      match mm.2 with
      | none => add_ast_to_nfa_m inner p.1 p.1 n3
      | some mx =>
        if mm.1 = mx then .ok n3
        else add_chain_eps_m inner (mx - mm.1) p.1 e n3
termination_by (sizeOf inner, 2, 0)

/-- Mirror of the `for _ in 1..min` loop (`add_chain`). -/
def add_chain_m (inner : Ast) (k : Nat) (cur : Nat) (n : MarkedNFA) :
    Except Error (Nat × MarkedNFA) :=
  match k with
  | 0 => .ok (cur, n)
  | k' + 1 =>
    let p := n.new_state
    match add_ast_to_nfa_m inner cur p.1 p.2 with
    | .ok n2 => add_chain_m inner k' p.1 n2
    | .error err => .error err
termination_by (sizeOf inner, 1, k)

/-- Mirror of the `for _ in min..max` loop (`add_chain_eps`). -/
def add_chain_eps_m (inner : Ast) (k : Nat) (cur : Nat) (e : Nat) (n : MarkedNFA) :
    Except Error MarkedNFA :=
  match k with
  | 0 => .ok n
  | k' + 1 =>
    let p := n.new_state
    match add_ast_to_nfa_m inner cur p.1 p.2 with
    | .ok n2 => add_chain_eps_m inner k' p.1 e (n2.add_epsilon_transition p.1 e)
    | .error err => .error err
termination_by (sizeOf inner, 1, k)

/-- Mirror of `NFA::add_concat`. -/
def add_concat_m (asts : List Ast) (s e : Nat) (n : MarkedNFA) : Except Error MarkedNFA :=
  match asts with
  | [] => .ok n
  | [a] => add_ast_to_nfa_m a s e n
  | a :: rest =>
    let p := n.new_state
    match add_ast_to_nfa_m a s p.1 p.2 with
    | .ok n2 => add_concat_m rest p.1 e n2
    | .error err => .error err
termination_by (sizeOf asts, 0, 0)

/-- Mirror of `NFA::add_alternation`. -/
def add_alternation_m (asts : List Ast) (s e : Nat) (n : MarkedNFA) : Except Error MarkedNFA :=
  match asts with
  | [] => .ok n
  | a :: rest =>
    let p1 := n.new_state
    let p2 := p1.2.new_state
    let n3 := (p2.2.add_epsilon_transition s p1.1).add_epsilon_transition p2.1 e
    match add_ast_to_nfa_m a p1.1 p2.1 n3 with
    | .ok n5 => add_alternation_m rest s e n5
    | .error err => .error err
termination_by (sizeOf asts, 0, 0)

end

/-- Map erasure over a fallible marked result. -/
def erase_result : Except Error MarkedNFA → Except Error NFA
  | .ok n => .ok n.erase
  | .error err => .error err

/-- Map erasure over a fallible chain result. -/
def erase_chain_result : Except Error (Nat × MarkedNFA) → Except Error (Nat × NFA)
  | .ok q => .ok (q.1, q.2.erase)
  | .error err => .error err

@[simp]
theorem MarkedNFA.erase_states (n : MarkedNFA) : n.erase.states = n.states := rfl

@[simp]
theorem erase_new_state_fst (n : MarkedNFA) :
    (NFA.new_state n.erase).1 = (MarkedNFA.new_state n).1 := rfl

@[simp]
theorem erase_new_state_snd (n : MarkedNFA) :
    (NFA.new_state n.erase).2 = (MarkedNFA.new_state n).2.erase := by
  simp [NFA.new_state, MarkedNFA.new_state, MarkedNFA.erase]

@[simp]
theorem erase_add_transition (n : MarkedNFA) (f t o : Nat) :
    (MarkedNFA.add_transition n f t o).erase = NFA.add_transition n.erase f t o := by
  simp [MarkedNFA.add_transition, NFA.add_transition, MarkedNFA.erase, MarkedTransition.erase]

@[simp]
theorem erase_add_transition_from_range (n : MarkedNFA) (f t : Nat) (r : Option (Nat × Nat)) :
    (MarkedNFA.add_transition_from_range n f t r).erase =
      NFA.add_transition_from_range n.erase f t r := by
  simp [MarkedNFA.add_transition_from_range, NFA.add_transition_from_range]

@[simp]
theorem erase_add_epsilon_transition (n : MarkedNFA) (f t : Nat) :
    (MarkedNFA.add_epsilon_transition n f t).erase = NFA.add_epsilon_transition n.erase f t := by
  simp [MarkedNFA.add_epsilon_transition, NFA.add_epsilon_transition, NFA.add_transition,
    MarkedNFA.erase, MarkedTransition.erase]

theorem erase_add_literal (c s e : Nat) (n : MarkedNFA) :
    add_literal c s e n.erase = erase_result (add_literal_m c s e n) := by
  rw [add_literal, add_literal_m]
  rcases get_ascii_char c with err | c2 <;> simp [erase_result]

theorem erase_add_dot (s e : Nat) (n : MarkedNFA) :
    add_dot s e n.erase = erase_result (add_dot_m s e n) := by
  simp [add_dot, add_dot_m, erase_result]

theorem erase_add_perl (p : ClassPerl) (s e : Nat) (n : MarkedNFA) :
    add_perl p s e n.erase = erase_result (add_perl_m p s e n) := by
  rw [add_perl, add_perl_m]
  by_cases hneg : p.negated = true
  · simp [hneg, erase_result]
  · rw [Bool.not_eq_true] at hneg
    rcases p with ⟨pn, pk⟩
    simp only at hneg
    subst hneg
    cases pk <;> simp [erase_result]

theorem erase_add_range (a b s e : Nat) (n : MarkedNFA) :
    add_range a b s e n.erase = erase_result (add_range_m a b s e n) := by
  rw [add_range, add_range_m]
  rcases get_ascii_char a with err | a2 <;> rcases get_ascii_char b with err2 | b2 <;>
    simp [erase_result]

theorem erase_class_bound : ∀ (N : Nat),
    (∀ (kind : ClassSet), sizeOf kind ≤ N → ∀ (negated : Bool) (s e : Nat) (n : MarkedNFA),
      add_bracketed negated kind s e n.erase = erase_result (add_bracketed_m negated kind s e n)) ∧
    (∀ (item : ClassSetItem), sizeOf item ≤ N → ∀ (s e : Nat) (n : MarkedNFA),
      add_class_set_item item s e n.erase = erase_result (add_class_set_item_m item s e n)) ∧
    (∀ (items : List ClassSetItem), sizeOf items ≤ N → ∀ (s e : Nat) (n : MarkedNFA),
      add_union items s e n.erase = erase_result (add_union_m items s e n)) := by
  intro N
  induction N with
  | zero =>
    refine ⟨?_, ?_, ?_⟩
    · intro kind hk
      exfalso
      cases kind <;> simp at hk
    · intro item hk
      exfalso
      cases item <;> simp at hk <;> omega
    · intro items hk
      exfalso
      cases items <;> simp at hk <;> omega
  | succ N ih =>
    obtain ⟨ihb, ihi, ihu⟩ := ih
    refine ⟨?_, ?_, ?_⟩
    · intro kind hk negated s e n
      rw [add_bracketed.eq_def, add_bracketed_m.eq_def]
      by_cases hneg : negated = true
      · simp [hneg, erase_result]
      · rw [Bool.not_eq_true] at hneg
        subst hneg
        match kind with
        | .Item item =>
          have hsz : sizeOf item ≤ N := by simp at hk; omega
          simpa using ihi item hsz s e n
        | .BinaryOp => simp [erase_result]
    · intro item hk s e n
      match item with
      | .Literal c => rw [add_class_set_item, add_class_set_item_m]; exact erase_add_literal c s e n
      | .Bracketed neg kind =>
        have hsz : sizeOf kind ≤ N := by simp at hk; omega
        rw [add_class_set_item, add_class_set_item_m]
        exact ihb kind hsz neg s e n
      | .Range a b => rw [add_class_set_item, add_class_set_item_m]; exact erase_add_range a b s e n
      | .Perl p => rw [add_class_set_item, add_class_set_item_m]; exact erase_add_perl p s e n
      | .Union items =>
        have hsz : sizeOf items ≤ N := by simp at hk; omega
        rw [add_class_set_item, add_class_set_item_m]
        exact ihu items hsz s e n
      | .OtherItem => rw [add_class_set_item, add_class_set_item_m]; rfl
    · intro items hk s e n
      match items with
      | [] => rw [add_union, add_union_m]; rfl
      | [item] =>
        have hsz : sizeOf item ≤ N := by simp at hk; omega
        rw [add_union, add_union_m]
        exact ihi item hsz s e n
      | item :: next :: rest =>
        have hszi : sizeOf item ≤ N := by simp at hk; omega
        have hszr : sizeOf (next :: rest) ≤ N := by simp at hk ⊢; omega
        rw [add_union.eq_def, add_union_m.eq_def]
        simp only []
        have hstep := ihi item hszi s (MarkedNFA.new_state n).1 (MarkedNFA.new_state n).2
        rcases hres : add_class_set_item_m item s (MarkedNFA.new_state n).1
            (MarkedNFA.new_state n).2 with err | n2
        · rw [hres] at hstep
          simp only [erase_result] at hstep
          simp only [erase_new_state_fst, erase_new_state_snd, hstep, hres]
          rfl
        · rw [hres] at hstep
          simp only [erase_result] at hstep
          simp only [erase_new_state_fst, erase_new_state_snd, hstep, hres]
          exact ihu (next :: rest) hszr (MarkedNFA.new_state n).1 e n2

theorem erase_add_chain_of (inner : Ast)
    (hcomm : ∀ s e n, add_ast_to_nfa inner s e (MarkedNFA.erase n) =
      erase_result (add_ast_to_nfa_m inner s e n)) :
    ∀ (k cur : Nat) (n : MarkedNFA),
    add_chain inner k cur n.erase = erase_chain_result (add_chain_m inner k cur n) := by
  intro k
  induction k with
  | zero => intro cur n; rw [add_chain, add_chain_m]; rfl
  | succ k ih =>
    intro cur n
    rw [add_chain, add_chain_m]
    simp only [erase_new_state_fst, erase_new_state_snd]
    have hstep := hcomm cur (MarkedNFA.new_state n).1 (MarkedNFA.new_state n).2
    rcases hres : add_ast_to_nfa_m inner cur (MarkedNFA.new_state n).1
        (MarkedNFA.new_state n).2 with err | n2
    · rw [hres] at hstep
      simp only [erase_result] at hstep
      simp only [hstep, hres]
      rfl
    · rw [hres] at hstep
      simp only [erase_result] at hstep
      simp only [hstep, hres]
      exact ih (MarkedNFA.new_state n).1 n2

theorem erase_add_chain_eps_of (inner : Ast)
    (hcomm : ∀ s e n, add_ast_to_nfa inner s e (MarkedNFA.erase n) =
      erase_result (add_ast_to_nfa_m inner s e n)) :
    ∀ (k cur e : Nat) (n : MarkedNFA),
    add_chain_eps inner k cur e n.erase = erase_result (add_chain_eps_m inner k cur e n) := by
  intro k
  induction k with
  | zero => intro cur e n; rw [add_chain_eps, add_chain_eps_m]; rfl
  | succ k ih =>
    intro cur e n
    rw [add_chain_eps, add_chain_eps_m]
    simp only [erase_new_state_fst, erase_new_state_snd]
    have hstep := hcomm cur (MarkedNFA.new_state n).1 (MarkedNFA.new_state n).2
    rcases hres : add_ast_to_nfa_m inner cur (MarkedNFA.new_state n).1
        (MarkedNFA.new_state n).2 with err | n2
    · rw [hres] at hstep
      simp only [erase_result] at hstep
      simp only [hstep, hres]
      rfl
    · rw [hres] at hstep
      simp only [erase_result] at hstep
      simp only [hstep, hres]
      rw [← erase_add_epsilon_transition]
      exact ih (MarkedNFA.new_state n).1 e (n2.add_epsilon_transition (MarkedNFA.new_state n).1 e)

theorem erase_add_repetition_of (greedy : Bool) (kind : RepetitionKind) (inner : Ast)
    (hcomm : ∀ s e n, add_ast_to_nfa inner s e (MarkedNFA.erase n) =
      erase_result (add_ast_to_nfa_m inner s e n)) :
    ∀ (s e : Nat) (n : MarkedNFA),
    add_repetition greedy kind inner s e n.erase =
      erase_result (add_repetition_m greedy kind inner s e n) := by
  intro s e n
  rw [add_repetition, add_repetition_m]
  by_cases hg : greedy = false
  · simp [hg, erase_result]
  · rw [if_neg hg, if_neg hg]
    have hafter :
        (if (get_repetition_range kind).1 = 0 then
          Except.ok ((NFA.new_state n.erase).2.add_epsilon_transition s (NFA.new_state n.erase).1)
        else
          match add_chain inner ((get_repetition_range kind).1 - 1) s
              (NFA.new_state n.erase).2 with
          | .error err => .error err
          | .ok q => add_ast_to_nfa inner q.1 (NFA.new_state n.erase).1 q.2) =
        erase_result
          (if (get_repetition_range kind).1 = 0 then
            Except.ok ((MarkedNFA.new_state n).2.add_epsilon_transition s
              (MarkedNFA.new_state n).1)
          else
            match add_chain_m inner ((get_repetition_range kind).1 - 1) s
                (MarkedNFA.new_state n).2 with
            | .error err => .error err
            | .ok q => add_ast_to_nfa_m inner q.1 (MarkedNFA.new_state n).1 q.2) := by
      by_cases h0 : (get_repetition_range kind).1 = 0
      · rw [if_pos h0, if_pos h0]
        simp [erase_result]
      · rw [if_neg h0, if_neg h0]
        have hchain := erase_add_chain_of inner hcomm ((get_repetition_range kind).1 - 1) s
          (MarkedNFA.new_state n).2
        rcases hres : add_chain_m inner ((get_repetition_range kind).1 - 1) s
            (MarkedNFA.new_state n).2 with err | q
        · rw [hres] at hchain
          simp only [erase_chain_result] at hchain
          simp only [erase_new_state_fst, erase_new_state_snd, hchain]
          rfl
        · rw [hres] at hchain
          simp only [erase_chain_result] at hchain
          simp only [erase_new_state_fst, erase_new_state_snd, hchain]
          exact hcomm q.1 (MarkedNFA.new_state n).1 q.2
    simp only [erase_new_state_fst, erase_new_state_snd] at hafter
    rcases hresa : (if (get_repetition_range kind).1 = 0 then
        Except.ok ((MarkedNFA.new_state n).2.add_epsilon_transition s
          (MarkedNFA.new_state n).1)
      else
        match add_chain_m inner ((get_repetition_range kind).1 - 1) s
            (MarkedNFA.new_state n).2 with
        | .error err => .error err
        | .ok q => add_ast_to_nfa_m inner q.1 (MarkedNFA.new_state n).1 q.2) with err | n2
    · rw [hresa] at hafter
      simp only [erase_result] at hafter
      simp only [erase_new_state_fst, erase_new_state_snd, hafter, hresa]
      rfl
    · rw [hresa] at hafter
      simp only [erase_result] at hafter
      simp only [erase_new_state_fst, erase_new_state_snd, hafter, hresa]
      rcases hm : (get_repetition_range kind).2 with _ | mx
      · simp only [hm]
        rw [← erase_add_epsilon_transition]
        exact hcomm (MarkedNFA.new_state n).1 (MarkedNFA.new_state n).1
          (n2.add_epsilon_transition (MarkedNFA.new_state n).1 e)
      · simp only [hm]
        by_cases he : (get_repetition_range kind).1 = mx
        · rw [if_pos he, if_pos he]
          simp [erase_result]
        · rw [if_neg he, if_neg he]
          rw [← erase_add_epsilon_transition]
          exact erase_add_chain_eps_of inner hcomm (mx - (get_repetition_range kind).1)
            (MarkedNFA.new_state n).1 e (n2.add_epsilon_transition (MarkedNFA.new_state n).1 e)

theorem erase_ast_bound : ∀ (N : Nat),
    (∀ (ast : Ast), sizeOf ast ≤ N → ∀ (s e : Nat) (n : MarkedNFA),
      add_ast_to_nfa ast s e n.erase = erase_result (add_ast_to_nfa_m ast s e n)) ∧
    (∀ (asts : List Ast), sizeOf asts ≤ N → ∀ (s e : Nat) (n : MarkedNFA),
      add_concat asts s e n.erase = erase_result (add_concat_m asts s e n)) ∧
    (∀ (asts : List Ast), sizeOf asts ≤ N → ∀ (s e : Nat) (n : MarkedNFA),
      add_alternation asts s e n.erase = erase_result (add_alternation_m asts s e n)) := by
  intro N
  induction N with
  | zero =>
    refine ⟨?_, ?_, ?_⟩
    · intro ast hk
      exfalso
      cases ast <;> simp at hk <;> omega
    · intro asts hk
      exfalso
      cases asts <;> simp at hk <;> omega
    · intro asts hk
      exfalso
      cases asts <;> simp at hk <;> omega
  | succ N ih =>
    obtain ⟨iha, ihc, ihl⟩ := ih
    have hself : ∀ (ast : Ast), sizeOf ast ≤ N + 1 → ∀ (s e : Nat) (n : MarkedNFA),
        add_ast_to_nfa ast s e n.erase = erase_result (add_ast_to_nfa_m ast s e n) := by
      intro ast hk s e n
      match ast with
      | .Literal c => rw [add_ast_to_nfa, add_ast_to_nfa_m]; exact erase_add_literal c s e n
      | .Dot => rw [add_ast_to_nfa, add_ast_to_nfa_m]; exact erase_add_dot s e n
      | .ClassPerl p => rw [add_ast_to_nfa, add_ast_to_nfa_m]; exact erase_add_perl p s e n
      | .Repetition greedy kind inner =>
        have hsz : sizeOf inner ≤ N := by simp at hk; omega
        rw [add_ast_to_nfa, add_ast_to_nfa_m]
        exact erase_add_repetition_of greedy kind inner (iha inner hsz) s e n
      | .Concat asts =>
        have hsz : sizeOf asts ≤ N := by simp at hk; omega
        rw [add_ast_to_nfa, add_ast_to_nfa_m]
        exact ihc asts hsz s e n
      | .ClassBracketed neg k =>
        rw [add_ast_to_nfa, add_ast_to_nfa_m]
        exact (erase_class_bound (sizeOf k)).1 k (le_refl _) neg s e n
      | .Alternation asts =>
        have hsz : sizeOf asts ≤ N := by simp at hk; omega
        rw [add_ast_to_nfa, add_ast_to_nfa_m]
        exact ihl asts hsz s e n
      | .Group gk inner =>
        have hsz : sizeOf inner ≤ N := by simp at hk; omega
        rw [add_ast_to_nfa, add_ast_to_nfa_m, add_group.eq_def, add_group_m.eq_def]
        match gk with
        | .CaptureIndex i => exact iha inner hsz s e n
        | .CaptureName name => rfl
        | .NonCapturing => rfl
      | .OtherAst => rw [add_ast_to_nfa, add_ast_to_nfa_m]; rfl
    refine ⟨hself, ?_, ?_⟩
    · intro asts hk s e n
      match asts with
      | [] => rw [add_concat, add_concat_m]; rfl
      | [a] =>
        have hsz : sizeOf a ≤ N + 1 := by simp at hk; omega
        rw [add_concat, add_concat_m]
        exact hself a hsz s e n
      | a :: next :: rest =>
        have hsza : sizeOf a ≤ N + 1 := by simp at hk; omega
        have hszr : sizeOf (next :: rest) ≤ N := by simp at hk ⊢; omega
        rw [add_concat.eq_def, add_concat_m.eq_def]
        simp only []
        have hstep := hself a hsza s (MarkedNFA.new_state n).1 (MarkedNFA.new_state n).2
        rcases hres : add_ast_to_nfa_m a s (MarkedNFA.new_state n).1
            (MarkedNFA.new_state n).2 with err | n2
        · rw [hres] at hstep
          simp only [erase_result] at hstep
          simp only [erase_new_state_fst, erase_new_state_snd, hstep, hres]
          rfl
        · rw [hres] at hstep
          simp only [erase_result] at hstep
          simp only [erase_new_state_fst, erase_new_state_snd, hstep, hres]
          exact ihc (next :: rest) hszr (MarkedNFA.new_state n).1 e n2
    · intro asts hk s e n
      match asts with
      | [] => rw [add_alternation, add_alternation_m]; rfl
      | a :: rest =>
        have hsza : sizeOf a ≤ N + 1 := by simp at hk; omega
        have hszr : sizeOf rest ≤ N := by simp at hk ⊢; omega
        rw [add_alternation, add_alternation_m]
        simp only [erase_new_state_fst, erase_new_state_snd]
        rw [← erase_add_epsilon_transition, ← erase_add_epsilon_transition]
        have hstep := hself a hsza (MarkedNFA.new_state n).1
          (MarkedNFA.new_state (MarkedNFA.new_state n).2).1
          ((((MarkedNFA.new_state n).2.new_state).2.add_epsilon_transition s
            (MarkedNFA.new_state n).1).add_epsilon_transition
            ((MarkedNFA.new_state n).2.new_state).1 e)
        rcases hres : add_ast_to_nfa_m a (MarkedNFA.new_state n).1
            (MarkedNFA.new_state (MarkedNFA.new_state n).2).1
            ((((MarkedNFA.new_state n).2.new_state).2.add_epsilon_transition s
              (MarkedNFA.new_state n).1).add_epsilon_transition
              ((MarkedNFA.new_state n).2.new_state).1 e) with err | n5
        · rw [hres] at hstep
          simp only [erase_result] at hstep
          simp only [hstep, hres]
          rfl
        · rw [hres] at hstep
          simp only [erase_result] at hstep
          simp only [hstep, hres]
          exact ihl rest hszr s e n5

/-- Erasing the provenance flags from the marked build recovers
`add_ast_to_nfa` exactly. -/
theorem erase_add_ast_to_nfa (ast : Ast) :
    ∀ (s e : Nat) (n : MarkedNFA),
    add_ast_to_nfa ast s e n.erase = erase_result (add_ast_to_nfa_m ast s e n) :=
  (erase_ast_bound (sizeOf ast)).1 ast (le_refl _)

/-! ### Non-empty class labels and the epsilon-mark invariant -/

theorem foldl_or_testBit_mono :
    ∀ (l : List Nat) (acc : Nat) (i : Nat), acc.testBit i = true →
    ((l.foldl (fun a c => a ||| (1 <<< c)) acc).testBit i) = true := by
  intro l
  induction l with
  | nil => intro acc i h; exact h
  | cons c rest ih =>
    intro acc i h
    rw [List.foldl_cons]
    apply ih
    rw [Nat.testBit_or, h]
    rfl

theorem foldl_or_testBit_of_mem :
    ∀ (l : List Nat) (acc : Nat) (b : Nat), b ∈ l →
    ((l.foldl (fun a c => a ||| (1 <<< c)) acc).testBit b) = true := by
  intro l
  induction l with
  | nil => intro acc b h; cases h
  | cons c rest ih =>
    intro acc b h
    rw [List.foldl_cons]
    rcases List.mem_cons.mp h with heq | hmem
    · subst heq
      apply foldl_or_testBit_mono
      rw [Nat.testBit_or, Nat.shiftLeft_eq, one_mul, Nat.testBit_two_pow_self]
      simp
    · exact ih _ b hmem

/-- The bitmap of a non-empty character range has its low bound's bit set, so
it is non-zero: the labels `add_literal` and `add_range` write are never
mistaken for epsilon. -/
theorem convert_char_range_ne_zero (b e : Nat) (hbe : b ≤ e) :
    convert_char_range_to_symbol_onehot_encoding (some (b, e)) ≠ 0 := by
  intro hzero
  have hmem : b ∈ List.range' b (e + 1 - b) := by
    rw [List.mem_range']
    exact ⟨0, by omega, by omega⟩
  have := foldl_or_testBit_of_mem (List.range' b (e + 1 - b)) 0 b hmem
  rw [convert_char_range_to_symbol_onehot_encoding] at hzero
  rw [hzero] at this
  simp at this

/-- The epsilon-mark invariant: a marked transition carries `eps = true`
exactly when its label is 0. -/
def eps_marks_agree (n : MarkedNFA) : Prop :=
  ∀ t ∈ n.transitions, (t.eps = true ↔ t.sym = 0)

theorem eps_marks_agree_add_transition {n : MarkedNFA} (f t o : Nat) (ho : o ≠ 0)
    (h : eps_marks_agree n) : eps_marks_agree (n.add_transition f t o) := by
  intro u hu
  rw [MarkedNFA.add_transition] at hu
  simp only [List.mem_append, List.mem_singleton] at hu
  rcases hu with hu | hu
  · exact h u hu
  · subst hu
    simp [ho]

theorem eps_marks_agree_add_epsilon {n : MarkedNFA} (f t : Nat)
    (h : eps_marks_agree n) : eps_marks_agree (n.add_epsilon_transition f t) := by
  intro u hu
  rw [MarkedNFA.add_epsilon_transition] at hu
  simp only [List.mem_append, List.mem_singleton] at hu
  rcases hu with hu | hu
  · exact h u hu
  · subst hu
    simp [EPSILON_TRANSITION]

theorem get_ascii_char_ok {c c2 : Nat} (h : get_ascii_char c = .ok c2) :
    c2 = c ∧ c ≤ 127 := by
  rw [get_ascii_char] at h
  by_cases hc : c ≤ 127
  · rw [if_pos hc] at h
    cases h
    exact ⟨rfl, hc⟩
  · rw [if_neg hc] at h
    cases h

/-! ### `valid_ranges`: every bracketed range in the AST is non-empty.

`regex_syntax`'s parser rejects reversed ranges such as `[b-a]`, so every AST
the program ever feeds to the builder satisfies this predicate; it is the
well-formedness assumption of the label/epsilon claim. -/

mutual

/-- All ranges inside a class set are non-empty (`start ≤ end`). -/
def valid_ranges_class_set : ClassSet → Bool
  | .Item item => valid_ranges_item item
  | .BinaryOp => true

/-- All ranges inside a class-set item are non-empty. -/
def valid_ranges_item : ClassSetItem → Bool
  | .Literal _ => true
  | .Bracketed _ kind => valid_ranges_class_set kind
  | .Range a b => decide (a ≤ b)
  | .Perl _ => true
  | .Union items => valid_ranges_items items
  | .OtherItem => true

/-- All ranges inside a list of class-set items are non-empty. -/
def valid_ranges_items : List ClassSetItem → Bool
  | [] => true
  | i :: rest => valid_ranges_item i && valid_ranges_items rest

end

mutual

/-- All bracketed ranges inside an AST are non-empty. -/
def valid_ranges_ast : Ast → Bool
  | .Literal _ => true
  | .Dot => true
  | .ClassPerl _ => true
  | .Repetition _ _ inner => valid_ranges_ast inner
  | .Concat asts => valid_ranges_ast_list asts
  | .ClassBracketed _ k => valid_ranges_class_set k
  | .Alternation asts => valid_ranges_ast_list asts
  | .Group _ inner => valid_ranges_ast inner
  | .OtherAst => true

/-- All bracketed ranges inside a list of ASTs are non-empty. -/
def valid_ranges_ast_list : List Ast → Bool
  | [] => true
  | a :: rest => valid_ranges_ast a && valid_ranges_ast_list rest

end

theorem epsinv_add_literal_m {c s e : Nat} {n n' : MarkedNFA}
    (hn : eps_marks_agree n) (h : add_literal_m c s e n = .ok n') : eps_marks_agree n' := by
  rw [add_literal_m] at h
  rcases hg : get_ascii_char c with err | c2
  · rw [hg] at h; cases h
  · rw [hg] at h
    cases h
    apply eps_marks_agree_add_transition _ _ _ _ hn
    exact convert_char_range_ne_zero c2 c2 (le_refl _)

theorem epsinv_add_dot_m {s e : Nat} {n n' : MarkedNFA}
    (hn : eps_marks_agree n) (h : add_dot_m s e n = .ok n') : eps_marks_agree n' := by
  rw [add_dot_m] at h
  cases h
  apply eps_marks_agree_add_transition _ _ _ _ hn
  rw [DOT_TRANSITION]
  decide

theorem epsinv_add_perl_m {p : ClassPerl} {s e : Nat} {n n' : MarkedNFA}
    (hn : eps_marks_agree n) (h : add_perl_m p s e n = .ok n') : eps_marks_agree n' := by
  rw [add_perl_m] at h
  by_cases hneg : p.negated = true
  · rw [if_pos hneg] at h; cases h
  · rw [if_neg hneg] at h
    match hk : p.kind with
    | .Digit =>
      rw [hk] at h
      cases h
      exact eps_marks_agree_add_transition _ _ _ (by rw [DIGIT_TRANSITION]; decide) hn
    | .Space =>
      rw [hk] at h
      cases h
      exact eps_marks_agree_add_transition _ _ _ (by rw [SPACE_TRANSITION]; decide) hn
    | .Word =>
      rw [hk] at h
      cases h
      exact eps_marks_agree_add_transition _ _ _ (by rw [WORD_TRANSITION]; decide) hn

theorem epsinv_add_range_m {a b s e : Nat} {n n' : MarkedNFA} (hab : a ≤ b)
    (hn : eps_marks_agree n) (h : add_range_m a b s e n = .ok n') : eps_marks_agree n' := by
  rw [add_range_m] at h
  rcases hga : get_ascii_char a with err | a2
  · rw [hga] at h; cases h
  · rw [hga] at h
    rcases hgb : get_ascii_char b with err | b2
    · rw [hgb] at h; cases h
    · rw [hgb] at h
      cases h
      apply eps_marks_agree_add_transition _ _ _ _ hn
      obtain ⟨ha2, _⟩ := get_ascii_char_ok hga
      obtain ⟨hb2, _⟩ := get_ascii_char_ok hgb
      rw [ha2, hb2]
      exact convert_char_range_ne_zero a b hab

theorem epsinv_class_bound : ∀ (N : Nat),
    (∀ (kind : ClassSet), sizeOf kind ≤ N → valid_ranges_class_set kind = true →
      ∀ (negated : Bool) (s e : Nat) (n n' : MarkedNFA), eps_marks_agree n →
      add_bracketed_m negated kind s e n = .ok n' → eps_marks_agree n') ∧
    (∀ (item : ClassSetItem), sizeOf item ≤ N → valid_ranges_item item = true →
      ∀ (s e : Nat) (n n' : MarkedNFA), eps_marks_agree n →
      add_class_set_item_m item s e n = .ok n' → eps_marks_agree n') ∧
    (∀ (items : List ClassSetItem), sizeOf items ≤ N → valid_ranges_items items = true →
      ∀ (s e : Nat) (n n' : MarkedNFA), eps_marks_agree n →
      add_union_m items s e n = .ok n' → eps_marks_agree n') := by
  intro N
  induction N with
  | zero =>
    refine ⟨?_, ?_, ?_⟩
    · intro kind hk
      exfalso
      cases kind <;> simp at hk
    · intro item hk
      exfalso
      cases item <;> simp at hk <;> omega
    · intro items hk
      exfalso
      cases items <;> simp at hk <;> omega
  | succ N ih =>
    obtain ⟨ihb, ihi, ihu⟩ := ih
    refine ⟨?_, ?_, ?_⟩
    · intro kind hk hv negated s e n n' hn h
      rw [add_bracketed_m.eq_def] at h
      by_cases hneg : negated = true
      · rw [if_pos (by simp [hneg])] at h
        cases h
      · rw [if_neg (by simp [hneg])] at h
        match kind, h with
        | .Item item, h =>
          have hsz : sizeOf item ≤ N := by simp at hk; omega
          exact ihi item hsz (by simpa [valid_ranges_class_set] using hv) s e n n' hn h
        | .BinaryOp, h => cases h
    · intro item hk hv s e n n' hn h
      match item, h with
      | .Literal c, h =>
        rw [add_class_set_item_m] at h
        exact epsinv_add_literal_m hn h
      | .Bracketed neg kind, h =>
        have hsz : sizeOf kind ≤ N := by simp at hk; omega
        rw [add_class_set_item_m] at h
        exact ihb kind hsz (by simpa [valid_ranges_item] using hv) neg s e n n' hn h
      | .Range a b, h =>
        rw [add_class_set_item_m] at h
        rw [valid_ranges_item, decide_eq_true_eq] at hv
        exact epsinv_add_range_m hv hn h
      | .Perl p, h =>
        rw [add_class_set_item_m] at h
        exact epsinv_add_perl_m hn h
      | .Union items, h =>
        have hsz : sizeOf items ≤ N := by simp at hk; omega
        rw [add_class_set_item_m] at h
        exact ihu items hsz (by simpa [valid_ranges_item] using hv) s e n n' hn h
      | .OtherItem, h =>
        rw [add_class_set_item_m] at h
        cases h
    · intro items hk hv s e n n' hn h
      match items, h with
      | [], h =>
        rw [add_union_m] at h
        cases h
        exact hn
      | [item], h =>
        rw [add_union_m] at h
        rw [valid_ranges_items, Bool.and_eq_true] at hv
        have hsz : sizeOf item ≤ N := by simp at hk; omega
        exact ihi item hsz hv.1 s e n n' hn h
      | item :: next :: rest, h =>
        rw [add_union_m.eq_def] at h
        simp only [] at h
        rw [valid_ranges_items, Bool.and_eq_true] at hv
        have hszi : sizeOf item ≤ N := by simp at hk; omega
        have hszr : sizeOf (next :: rest) ≤ N := by simp at hk ⊢; omega
        rcases hres : add_class_set_item_m item s (MarkedNFA.new_state n).1
            (MarkedNFA.new_state n).2 with err | n2
        · rw [hres] at h
          cases h
        · rw [hres] at h
          have hn2 : eps_marks_agree n2 := by
            apply ihi item hszi hv.1 s (MarkedNFA.new_state n).1 (MarkedNFA.new_state n).2 n2 _
              hres
            intro u hu
            exact hn u hu
          exact ihu (next :: rest) hszr hv.2 (MarkedNFA.new_state n).1 e n2 n' hn2 h

theorem epsinv_add_chain_m_of (inner : Ast)
    (hpres : ∀ (s e : Nat) (n n' : MarkedNFA), eps_marks_agree n →
      add_ast_to_nfa_m inner s e n = .ok n' → eps_marks_agree n') :
    ∀ (k cur : Nat) (n : MarkedNFA) (q : Nat × MarkedNFA), eps_marks_agree n →
    add_chain_m inner k cur n = .ok q → eps_marks_agree q.2 := by
  intro k
  induction k with
  | zero =>
    intro cur n q hn h
    rw [add_chain_m] at h
    cases h
    exact hn
  | succ k ih =>
    intro cur n q hn h
    rw [add_chain_m] at h
    rcases hres : add_ast_to_nfa_m inner cur (MarkedNFA.new_state n).1
        (MarkedNFA.new_state n).2 with err | n2
    · rw [hres] at h; cases h
    · rw [hres] at h
      have hn2 : eps_marks_agree n2 :=
        hpres cur (MarkedNFA.new_state n).1 (MarkedNFA.new_state n).2 n2
          (fun u hu => hn u hu) hres
      exact ih (MarkedNFA.new_state n).1 n2 q hn2 h

theorem epsinv_add_chain_eps_m_of (inner : Ast)
    (hpres : ∀ (s e : Nat) (n n' : MarkedNFA), eps_marks_agree n →
      add_ast_to_nfa_m inner s e n = .ok n' → eps_marks_agree n') :
    ∀ (k cur e : Nat) (n n' : MarkedNFA), eps_marks_agree n →
    add_chain_eps_m inner k cur e n = .ok n' → eps_marks_agree n' := by
  intro k
  induction k with
  | zero =>
    intro cur e n n' hn h
    rw [add_chain_eps_m] at h
    cases h
    exact hn
  | succ k ih =>
    intro cur e n n' hn h
    rw [add_chain_eps_m] at h
    rcases hres : add_ast_to_nfa_m inner cur (MarkedNFA.new_state n).1
        (MarkedNFA.new_state n).2 with err | n2
    · rw [hres] at h; cases h
    · rw [hres] at h
      have hn2 : eps_marks_agree n2 :=
        hpres cur (MarkedNFA.new_state n).1 (MarkedNFA.new_state n).2 n2
          (fun u hu => hn u hu) hres
      exact ih (MarkedNFA.new_state n).1 e _ n'
        (eps_marks_agree_add_epsilon _ _ hn2) h

theorem epsinv_add_repetition_m_of (greedy : Bool) (kind : RepetitionKind) (inner : Ast)
    (hpres : ∀ (s e : Nat) (n n' : MarkedNFA), eps_marks_agree n →
      add_ast_to_nfa_m inner s e n = .ok n' → eps_marks_agree n') :
    ∀ (s e : Nat) (n n' : MarkedNFA), eps_marks_agree n →
    add_repetition_m greedy kind inner s e n = .ok n' → eps_marks_agree n' := by
  intro s e n n' hn h
  rw [add_repetition_m] at h
  by_cases hg : greedy = false
  · rw [if_pos hg] at h; cases h
  · rw [if_neg hg] at h
    rcases hresa : (if (get_repetition_range kind).1 = 0 then
        Except.ok ((MarkedNFA.new_state n).2.add_epsilon_transition s
          (MarkedNFA.new_state n).1)
      else
        match add_chain_m inner ((get_repetition_range kind).1 - 1) s
            (MarkedNFA.new_state n).2 with
        | .error err => .error err
        | .ok q => add_ast_to_nfa_m inner q.1 (MarkedNFA.new_state n).1 q.2) with err | n2
    · simp only [hresa] at h
      cases h
    · simp only [hresa] at h
      have hn2 : eps_marks_agree n2 := by
        by_cases h0 : (get_repetition_range kind).1 = 0
        · rw [if_pos h0] at hresa
          cases hresa
          exact eps_marks_agree_add_epsilon _ _ (fun u hu => hn u hu)
        · rw [if_neg h0] at hresa
          rcases hchain : add_chain_m inner ((get_repetition_range kind).1 - 1) s
              (MarkedNFA.new_state n).2 with err | q
          · rw [hchain] at hresa; cases hresa
          · rw [hchain] at hresa
            have hq : eps_marks_agree q.2 :=
              epsinv_add_chain_m_of inner hpres _ s (MarkedNFA.new_state n).2 q
                (fun u hu => hn u hu) hchain
            exact hpres q.1 (MarkedNFA.new_state n).1 q.2 n2 hq hresa
      have hn3 : eps_marks_agree (n2.add_epsilon_transition (MarkedNFA.new_state n).1 e) :=
        eps_marks_agree_add_epsilon _ _ hn2
      rcases hm : (get_repetition_range kind).2 with _ | mx
      · simp only [hm] at h
        exact hpres (MarkedNFA.new_state n).1 (MarkedNFA.new_state n).1 _ n' hn3 h
      · simp only [hm] at h
        by_cases he : (get_repetition_range kind).1 = mx
        · rw [if_pos he] at h
          cases h
          exact hn3
        · rw [if_neg he] at h
          exact epsinv_add_chain_eps_m_of inner hpres _ (MarkedNFA.new_state n).1 e _ n' hn3 h

theorem epsinv_ast_bound : ∀ (N : Nat),
    (∀ (ast : Ast), sizeOf ast ≤ N → valid_ranges_ast ast = true →
      ∀ (s e : Nat) (n n' : MarkedNFA), eps_marks_agree n →
      add_ast_to_nfa_m ast s e n = .ok n' → eps_marks_agree n') ∧
    (∀ (asts : List Ast), sizeOf asts ≤ N → valid_ranges_ast_list asts = true →
      ∀ (s e : Nat) (n n' : MarkedNFA), eps_marks_agree n →
      add_concat_m asts s e n = .ok n' → eps_marks_agree n') ∧
    (∀ (asts : List Ast), sizeOf asts ≤ N → valid_ranges_ast_list asts = true →
      ∀ (s e : Nat) (n n' : MarkedNFA), eps_marks_agree n →
      add_alternation_m asts s e n = .ok n' → eps_marks_agree n') := by
  intro N
  induction N with
  | zero =>
    refine ⟨?_, ?_, ?_⟩
    · intro ast hk
      exfalso
      cases ast <;> simp at hk <;> omega
    · intro asts hk
      exfalso
      cases asts <;> simp at hk <;> omega
    · intro asts hk
      exfalso
      cases asts <;> simp at hk <;> omega
  | succ N ih =>
    obtain ⟨iha, ihc, ihl⟩ := ih
    have hself : ∀ (ast : Ast), sizeOf ast ≤ N + 1 → valid_ranges_ast ast = true →
        ∀ (s e : Nat) (n n' : MarkedNFA), eps_marks_agree n →
        add_ast_to_nfa_m ast s e n = .ok n' → eps_marks_agree n' := by
      intro ast hk hv s e n n' hn h
      match ast, h with
      | .Literal c, h =>
        rw [add_ast_to_nfa_m] at h
        exact epsinv_add_literal_m hn h
      | .Dot, h =>
        rw [add_ast_to_nfa_m] at h
        exact epsinv_add_dot_m hn h
      | .ClassPerl p, h =>
        rw [add_ast_to_nfa_m] at h
        exact epsinv_add_perl_m hn h
      | .Repetition greedy kind inner, h =>
        have hsz : sizeOf inner ≤ N := by simp at hk; omega
        rw [add_ast_to_nfa_m] at h
        exact epsinv_add_repetition_m_of greedy kind inner
          (iha inner hsz (by simpa [valid_ranges_ast] using hv)) s e n n' hn h
      | .Concat asts, h =>
        have hsz : sizeOf asts ≤ N := by simp at hk; omega
        rw [add_ast_to_nfa_m] at h
        exact ihc asts hsz (by simpa [valid_ranges_ast] using hv) s e n n' hn h
      | .ClassBracketed neg k, h =>
        rw [add_ast_to_nfa_m] at h
        exact (epsinv_class_bound (sizeOf k)).1 k (le_refl _)
          (by simpa [valid_ranges_ast] using hv) neg s e n n' hn h
      | .Alternation asts, h =>
        have hsz : sizeOf asts ≤ N := by simp at hk; omega
        rw [add_ast_to_nfa_m] at h
        exact ihl asts hsz (by simpa [valid_ranges_ast] using hv) s e n n' hn h
      | .Group gk inner, h =>
        have hsz : sizeOf inner ≤ N := by simp at hk; omega
        rw [add_ast_to_nfa_m, add_group_m.eq_def] at h
        match gk, h with
        | .CaptureIndex i, h =>
          exact iha inner hsz (by simpa [valid_ranges_ast] using hv) s e n n' hn h
        | .CaptureName name, h => cases h
        | .NonCapturing, h => cases h
      | .OtherAst, h =>
        rw [add_ast_to_nfa_m] at h
        cases h
    refine ⟨hself, ?_, ?_⟩
    · intro asts hk hv s e n n' hn h
      match asts, h with
      | [], h =>
        rw [add_concat_m] at h
        cases h
        exact hn
      | [a], h =>
        rw [add_concat_m] at h
        rw [valid_ranges_ast_list, Bool.and_eq_true] at hv
        have hsz : sizeOf a ≤ N + 1 := by simp at hk; omega
        exact hself a hsz hv.1 s e n n' hn h
      | a :: next :: rest, h =>
        rw [add_concat_m.eq_def] at h
        simp only [] at h
        rw [valid_ranges_ast_list, Bool.and_eq_true] at hv
        have hsza : sizeOf a ≤ N + 1 := by simp at hk; omega
        have hszr : sizeOf (next :: rest) ≤ N := by simp at hk ⊢; omega
        rcases hres : add_ast_to_nfa_m a s (MarkedNFA.new_state n).1
            (MarkedNFA.new_state n).2 with err | n2
        · rw [hres] at h; cases h
        · rw [hres] at h
          have hn2 : eps_marks_agree n2 :=
            hself a hsza hv.1 s (MarkedNFA.new_state n).1 (MarkedNFA.new_state n).2 n2
              (fun u hu => hn u hu) hres
          exact ihc (next :: rest) hszr hv.2 (MarkedNFA.new_state n).1 e n2 n' hn2 h
    · intro asts hk hv s e n n' hn h
      match asts, h with
      | [], h =>
        rw [add_alternation_m] at h
        cases h
        exact hn
      | a :: rest, h =>
        rw [add_alternation_m] at h
        rw [valid_ranges_ast_list, Bool.and_eq_true] at hv
        have hsza : sizeOf a ≤ N + 1 := by simp at hk; omega
        have hszr : sizeOf rest ≤ N := by simp at hk ⊢; omega
        rcases hres : add_ast_to_nfa_m a (MarkedNFA.new_state n).1
            (MarkedNFA.new_state (MarkedNFA.new_state n).2).1
            ((((MarkedNFA.new_state n).2.new_state).2.add_epsilon_transition s
              (MarkedNFA.new_state n).1).add_epsilon_transition
              ((MarkedNFA.new_state n).2.new_state).1 e) with err | n5
        · rw [hres] at h; cases h
        · rw [hres] at h
          have hwired : eps_marks_agree
              ((((MarkedNFA.new_state n).2.new_state).2.add_epsilon_transition s
                (MarkedNFA.new_state n).1).add_epsilon_transition
                ((MarkedNFA.new_state n).2.new_state).1 e) := by
            apply eps_marks_agree_add_epsilon
            apply eps_marks_agree_add_epsilon
            intro u hu
            exact hn u hu
          have hn5 : eps_marks_agree n5 := hself a hsza hv.1 _ _ _ n5 hwired hres
          exact ihl rest hszr hv.2 s e n5 n' hn5 h

/-- C5. In every NFA built by `add_ast_to_nfa` from a supported AST whose
bracketed ranges are non-empty (the only ASTs `regex_syntax`'s parser
produces), a transition's 128-bit label is 0 exactly when the transition is
an epsilon transition — i.e. was inserted by `add_epsilon_transition`.
Formally: running the provenance-marked mirror of the builder preserves the
agreement between the epsilon mark and the label being 0, and erasing the
marks recovers precisely the NFA `add_ast_to_nfa` itself produces. In
particular every non-epsilon transition, including those emitted for
bracketed class ranges, has at least one bit set in its label. -/
theorem epsilon_label_iff_epsilon_edge :
    ∀ (ast : Ast) (s e : Nat) (n n' : MarkedNFA),
    valid_ranges_ast ast = true →
    eps_marks_agree n →
    add_ast_to_nfa_m ast s e n = .ok n' →
    (∀ t ∈ n'.transitions, (t.eps = true ↔ t.sym = 0)) ∧
    add_ast_to_nfa ast s e n.erase = .ok n'.erase := by
  intro ast s e n n' hv hn h
  refine ⟨(epsinv_ast_bound (sizeOf ast)).1 ast (le_refl _) hv s e n n' hn h, ?_⟩
  rw [erase_add_ast_to_nfa ast s e n, h]
  rfl

/-- The marked NFA the mirror builder produces for the bracketed range
`[a-c]` from the fresh NFA: a single edge labelled with the bitmap of
`'a'..'c'`, marked non-epsilon. -/
def bracket_range_marked_nfa : MarkedNFA :=
  { start := 0, accept := 1, states := [0, 1],
    transitions :=
      [⟨0, 1, convert_char_range_to_symbol_onehot_encoding (some (97, 99)), -1, false⟩] }

/-- C5 witness: the theorem applied to the bracketed range `[a-c]` compiled
from the fresh marked NFA: the produced edge agrees with its epsilon mark,
and erasing the marks gives exactly the NFA the real builder produces. -/
theorem epsilon_label_iff_epsilon_edge_witness :
    (∀ t ∈ bracket_range_marked_nfa.transitions, (t.eps = true ↔ t.sym = 0)) ∧
    add_ast_to_nfa (.ClassBracketed false (.Item (.Range 97 99))) 0 1 MarkedNFA.new.erase =
      .ok bracket_range_marked_nfa.erase :=
  epsilon_label_iff_epsilon_edge (.ClassBracketed false (.Item (.Range 97 99))) 0 1
    MarkedNFA.new bracket_range_marked_nfa (by decide) (by intro t ht; cases ht)
    (by simp [add_ast_to_nfa_m, add_bracketed_m, add_class_set_item_m, add_range_m,
      get_ascii_char, MarkedNFA.add_transition_from_range, MarkedNFA.add_transition,
      MarkedNFA.new, bracket_range_marked_nfa])

end LogSurgeon
